import Mathlib

/-!
# OpenSCAP: `src/common/oscap_acquire.c` and `src/OVAL/oval_generator.c`

A shallow embedding of the acquisition helpers (temporary directory cleanup,
URL download, URL scheme test, URL to file name) and of the OVAL generator
serialiser, together with the properties stated about them.

Conventions of the embedding.

* A C string is the list of its bytes before the terminating NUL; reading
  past the end of the list reads the terminator.
* The operating system, libc, libcurl and libxml2 are the environment: their
  calls are modelled by the definitions of the first sections, the functions
  of the repository are translated statement by statement on top of them.
* State is passed explicitly (`World` for the acquisition helpers, `Dom` for
  the serialiser).
-/

set_option maxRecDepth 100000

namespace OpenSCAP

/-! ## C strings -/

/-- One `char`, read as `unsigned char`. -/
abbrev Byte := Fin 256

/-- The bytes of a C string, terminator excluded. -/
abbrev CString := List Byte

/-- The C string of a literal. -/
def ofStr (s : String) : CString := s.toList.map (fun c => Fin.ofNat c.toNat)

/-- `strlen`: the number of bytes before the first NUL. -/
def strlen (s : CString) : Nat := (s.takeWhile (fun c => c ≠ 0)).length

/-- `strncmp(s1, s2, n)`: compares at most `n` bytes as `unsigned char`,
stopping after a NUL; zero when no difference was met. -/
def strncmp (s1 s2 : CString) : Nat → Int
  | 0 => 0
  | n + 1 =>
    let c1 : Byte := s1.headD 0
    let c2 : Byte := s2.headD 0
    if c1 ≠ c2 then (c1.val : Int) - (c2.val : Int)
    else if c1 = 0 then 0
    else strncmp s1.tail s2.tail n

/-- `strdup`: a copy of the bytes before the first NUL. -/
def strdup (s : CString) : CString := s.take (strlen s)

/-- `snprintf(buf, size, "%s...", ...)` once the arguments are concatenated:
at most `size - 1` bytes are stored. -/
def snprintf (size : Nat) (formatted : CString) : CString := formatted.take (size - 1)

/-! ## Error codes and the library error state -/

/-- The `errno` values the model produces. -/
inductive Errno where
  | EPERM | ENOENT | EACCES | EEXIST | ENOTDIR | EINVAL | ENOTEMPTY | EBUSY | ENOMEM
  deriving DecidableEq, Repr

/-- `strerror` in the C locale. -/
def strerror : Errno → CString
  | .EPERM => ofStr "Operation not permitted"
  | .ENOENT => ofStr "No such file or directory"
  | .EACCES => ofStr "Permission denied"
  | .EEXIST => ofStr "File exists"
  | .ENOTDIR => ofStr "Not a directory"
  | .EINVAL => ofStr "Invalid argument"
  | .ENOTEMPTY => ofStr "Directory not empty"
  | .EBUSY => ofStr "Device or resource busy"
  | .ENOMEM => ofStr "Cannot allocate memory"

/-- Error families of `common/_error.h` used by the two functions. -/
inductive oscap_errfamily_t where
  | OSCAP_EFAMILY_GLIBC | OSCAP_EFAMILY_NET
  deriving DecidableEq, Repr

/-- One recorded library error: its family and its formatted description. -/
structure oscap_err_t where
  family : oscap_errfamily_t
  desc : CString
  deriving DecidableEq, Repr

/-! ## File system -/

/-- A directory entry name. -/
abbrev Name := CString

/-- An absolute path as the list of its components, the root being `[]`. -/
abbrev Path := List Name

/-- A file system object. `dev` is `st_dev`; a directory lists its entries in
`readdir` order and may be unreadable (`opendir` fails with `EACCES`). -/
inductive Node where
  | file (dev : Nat) (mode : Nat) (content : List Byte)
  | symlink (dev : Nat) (target : CString)
  | dir (dev : Nat) (readable : Bool) (entries : List (Name × Node))
  deriving Repr

/-- The device an object lives on. -/
def Node.dev : Node → Nat
  | .file d _ _ => d
  | .symlink d _ => d
  | .dir d _ _ => d

/-- The first entry called `n`. -/
def findEntry (n : Name) : List (Name × Node) → Option Node
  | [] => none
  | (m, c) :: rest => if m = n then some c else findEntry n rest

/-- Replaces the node of the first entry called `n` by its image under `f`. -/
def mapEntry (n : Name) (f : Node → Node) : List (Name × Node) → List (Name × Node)
  | [] => []
  | (m, c) :: rest => if m = n then (m, f c) :: rest else (m, c) :: mapEntry n f rest

/-- Drops the entries called `n`. -/
def dropEntry (n : Name) (es : List (Name × Node)) : List (Name × Node) :=
  es.filter (fun e => decide (e.1 ≠ n))

/-- The names of a list of entries. -/
def entryNames (es : List (Name × Node)) : List Name := es.map (fun e => e.1)

/-- The object a path leads to; symbolic links are not followed. -/
def Node.lookup : Path → Node → Option Node
  | [], t => some t
  | n :: q, .dir _ _ es =>
    match findEntry n es with
    | some c => Node.lookup q c
    | none => none
  | _ :: _, _ => none

/-- The tree without the entry at a path (the root cannot be erased). -/
def Node.eraseAt : Path → Node → Node
  | [], t => t
  | n :: q, .dir d r es =>
    match q with
    | [] => .dir d r (dropEntry n es)
    | _ :: _ => .dir d r (mapEntry n (Node.eraseAt q) es)
  | _ :: _, t => t

/-- The tree with the entry `(n, x)` appended to the directory at a path. -/
def Node.insertAt (n : Name) (x : Node) : Path → Node → Node
  | [], .dir d r es => .dir d r (es ++ [(n, x)])
  | [], t => t
  | m :: q, .dir d r es => .dir d r (mapEntry m (Node.insertAt n x q) es)
  | _ :: _, t => t

/-- Appends bytes to a regular file. -/
def Node.append (data : List Byte) : Node → Node
  | .file d m c => .file d m (c ++ data)
  | t => t

/-- The tree with the object at a path replaced by its image under `f`. -/
def Node.modifyAt (f : Node → Node) : Path → Node → Node
  | [], t => f t
  | m :: q, .dir d r es => .dir d r (mapEntry m (Node.modifyAt f q) es)
  | _ :: _, t => t

/-- Splits at every '/'. -/
def splitSlash : CString → List CString
  | [] => [[]]
  | c :: cs =>
    if c = 47 then [] :: splitSlash cs
    else
      match splitSlash cs with
      | [] => [[c]]
      | h :: t => (c :: h) :: t

/-- Path resolution of a path name: its non-empty components, taken from the
root directory (the working directory of the model is the root, `.` and `..`
are ordinary names). -/
def parsePath (s : CString) : Path := (splitSlash s).filter (fun n => decide (n ≠ []))

/-! ## Process state -/

/-- The state the functions act on: the file system with the operations the
operating system refuses, the process attributes, the library error slot and
the libcurl handles. `removeLog` and `curl_cleaned` record the calls made. -/
structure World where
  root : Node
  denyRemove : Path → Bool
  denyCreate : Path → Bool
  umask : Nat
  errno : Errno
  next_fd : Nat
  open_fds : List (Nat × CString)
  removeLog : List CString
  curl_next : Nat
  curl_live : List Nat
  curl_cleaned : List Nat
  last_error : Option oscap_err_t

/-- Modelled from the spec: `oscap_seterr` of `common/_error.h`, which is not
among the sources; the description is the formatted message and the library
keeps it in its single last-error slot (§9, "single shared last error slot"). -/
def oscap_seterr (family : oscap_errfamily_t) (desc : CString) (w : World) : World :=
  { w with last_error := some ⟨family, desc⟩ }

/-- `umask(mask)`: sets the mask and returns the previous one. -/
def umask (mask : Nat) (w : World) : Nat × World := (w.umask, { w with umask := mask })

/-- `remove(path)`: `unlink` for a file or link, `rmdir` for a directory. It
fails when the path does not resolve (`ENOENT`), names the root (`EBUSY`), is
refused by the operating system (`EACCES`) or is a directory with entries
(`ENOTEMPTY`). Every call is recorded in `removeLog`. -/
def remove (path : CString) (w : World) : Int × World :=
  let w1 := { w with removeLog := w.removeLog ++ [path] }
  let p := parsePath path
  match Node.lookup p w.root with
  | none => (-1, { w1 with errno := .ENOENT })
  | some t =>
    if p = [] then (-1, { w1 with errno := .EBUSY })
    else if w.denyRemove p then (-1, { w1 with errno := .EACCES })
    else
      match t with
      | .dir _ _ (_ :: _) => (-1, { w1 with errno := .ENOTEMPTY })
      | _ => (0, { w1 with root := Node.eraseAt p w.root })

/-- `open(path, O_RDWR | O_CREAT | O_EXCL, mode)`: creates an empty regular
file and returns its descriptor, or `-1`. -/
def open_excl (path : CString) (mode : Nat) (w : World) : Int × World :=
  let p := parsePath path
  match p.getLast? with
  | none => (-1, { w with errno := .EEXIST })
  | some n =>
    match Node.lookup p.dropLast w.root with
    | none => (-1, { w with errno := .ENOENT })
    | some (.dir d _ es) =>
      if (findEntry n es).isSome then (-1, { w with errno := .EEXIST })
      else if w.denyCreate p then (-1, { w with errno := .EACCES })
      else
        let f := Node.file d (mode &&& (0o7777 ^^^ (w.umask &&& 0o7777))) []
        ((w.next_fd : Int),
          { w with root := Node.insertAt n f p.dropLast w.root,
                   next_fd := w.next_fd + 1,
                   open_fds := (w.next_fd, path) :: w.open_fds })
    | some _ => (-1, { w with errno := .ENOTDIR })

/-- `close(fd)`, and `fclose` of the stream opened on `fd`. -/
def close (fd : Int) (w : World) : World :=
  { w with open_fds := w.open_fds.filter (fun e => decide ((e.1 : Int) ≠ fd)) }

/-- The bytes written through the stream on `fd` reach the file the
descriptor was opened at, when it is still linked there. -/
def fwrite (data : List Byte) (fd : Int) (w : World) : World :=
  match w.open_fds.find? (fun e => decide ((e.1 : Int) = fd)) with
  | none => w
  | some e => { w with root := Node.modifyAt (Node.append data) (parsePath e.2) w.root }

/-- The alphabet of `mkstemp`. -/
def letters : CString :=
  ofStr "abcdefghijklmnopqrstuvwxyzABCDEFGHIJKLMNOPQRSTUVWXYZ0123456789"

/-- The six characters `mkstemp` derives from one random value. -/
def gen_suffix (v : Nat) : CString :=
  (List.range 6).map (fun i => letters.getD ((v / 62 ^ i) % 62) 97)

/-- The attempts of `mkstemp`: one name per random value, until a creation
succeeds or fails for another reason than `EEXIST`. -/
def mkstemp_try (stem : CString) : List Nat → World → Int × CString × World
  | [], w => (-1, stem ++ ofStr "XXXXXX", { w with errno := .EEXIST })
  | v :: vs, w =>
    match open_excl (stem ++ gen_suffix v) 0o600 w with
    | (fd, w1) =>
      if fd ≠ -1 then (fd, stem ++ gen_suffix v, w1)
      else if w1.errno = .EEXIST then mkstemp_try stem vs w
      else (-1, stem ++ ofStr "XXXXXX", w1)

/-- `mkstemp(template)`: the template must end in "XXXXXX" (`EINVAL`
otherwise); returns the descriptor and the template as rewritten in place. -/
def mkstemp (randoms : List Nat) (template : CString) (w : World) : Int × CString × World :=
  if template.length < 6 ∨ template.drop (template.length - 6) ≠ ofStr "XXXXXX" then
    (-1, template, { w with errno := .EINVAL })
  else mkstemp_try (template.take (template.length - 6)) randoms w

/-- Callback type flags of `ftw.h`. -/
inductive FtwFlag where
  | FTW_F | FTW_D | FTW_DNR | FTW_DP | FTW_SL
  deriving DecidableEq, Repr

mutual
/-- The walk of `nftw` below one object, with `FTW_DEPTH | FTW_PHYS |
FTW_MOUNT`: objects on another device than the start are skipped, links are
reported and not followed, a directory is reported after its entries, and the
walk stops at the first non-zero value the callback returns. -/
def ftw_walk (fn : CString → FtwFlag → World → Int × World) (dev0 : Nat) (fpath : CString) :
    Node → World → Int × World
  | .file d _ _, w => if d ≠ dev0 then (0, w) else fn fpath .FTW_F w
  | .symlink d _, w => if d ≠ dev0 then (0, w) else fn fpath .FTW_SL w
  | .dir d r es, w =>
    if d ≠ dev0 then (0, w)
    else if r = false then fn fpath .FTW_DNR w
    else
      match ftw_dir fn dev0 fpath es w with
      | (rv, w1) => if rv ≠ 0 then (rv, w1) else fn fpath .FTW_DP w1
/-- The walk over the entries of the directory `dpath`. -/
def ftw_dir (fn : CString → FtwFlag → World → Int × World) (dev0 : Nat) (dpath : CString) :
    List (Name × Node) → World → Int × World
  | [], w => (0, w)
  | (n, c) :: rest, w =>
    match ftw_walk fn dev0 (dpath ++ 47 :: n) c w with
    | (rv, w1) => if rv ≠ 0 then (rv, w1) else ftw_dir fn dev0 dpath rest w1
end

/-- `nftw(dirpath, fn, nopenfd, FTW_DEPTH | FTW_PHYS | FTW_MOUNT)`. The
callback receives the path name and the type flag; path names are spelled as
`dirpath` followed by "/" and a name for every level below the start. The
walk follows the tree as it is when the walk starts: a
callback that, like `__unlink_cb`, only removes the object it is called on
changes no directory the walk has yet to read, since with `FTW_DEPTH` an
object is reported after everything below it. -/
def nftw (dirpath : CString) (fn : CString → FtwFlag → World → Int × World) (w : World) :
    Int × World :=
  if dirpath = [] then (-1, { w with errno := .ENOENT })
  else
    match Node.lookup (parsePath dirpath) w.root with
    | none => (-1, { w with errno := .ENOENT })
    | some t => ftw_walk fn t.dev dirpath t w

/-! ## The order of the walk -/

mutual
/-- The calls `nftw` makes below one object when no callback fails: the path
names and type flags in the order of `ftw_walk`. -/
def ftw_visits (dev0 : Nat) (fpath : CString) : Node → List (CString × FtwFlag)
  | .file d _ _ => if d ≠ dev0 then [] else [(fpath, .FTW_F)]
  | .symlink d _ => if d ≠ dev0 then [] else [(fpath, .FTW_SL)]
  | .dir d r es =>
    if d ≠ dev0 then []
    else if r = false then [(fpath, .FTW_DNR)]
    else ftw_visits_dir dev0 fpath es ++ [(fpath, .FTW_DP)]
/-- The calls for the entries of the directory `dpath`. -/
def ftw_visits_dir (dev0 : Nat) (dpath : CString) : List (Name × Node) → List (CString × FtwFlag)
  | [] => []
  | (n, c) :: rest => ftw_visits dev0 (dpath ++ 47 :: n) c ++ ftw_visits_dir dev0 dpath rest
end

/-- The path names `nftw(dirpath, ...)` visits in a tree, in order. -/
def visits (dirpath : CString) (t : Node) : List CString :=
  (ftw_visits t.dev dirpath t).map (fun v => v.1)

mutual
/-- The visited objects as paths relative to the start of the walk. -/
def visitPaths (dev0 : Nat) : Node → List Path
  | .file d _ _ => if d ≠ dev0 then [] else [[]]
  | .symlink d _ => if d ≠ dev0 then [] else [[]]
  | .dir d r es =>
    if d ≠ dev0 then []
    else if r = false then [[]]
    else visitPaths_dir dev0 es ++ [[]]
/-- The visited objects below the entries of a directory. -/
def visitPaths_dir (dev0 : Nat) : List (Name × Node) → List Path
  | [] => []
  | (n, c) :: rest => (visitPaths dev0 c).map (fun q => n :: q) ++ visitPaths_dir dev0 rest
end

/-- Runs a callback over a list of visits until it returns non-zero. -/
def runVisits (fn : CString → FtwFlag → World → Int × World) :
    List (CString × FtwFlag) → World → Int × World
  | [], w => (0, w)
  | v :: vs, w =>
    match fn v.1 v.2 w with
    | (rv, w1) => if rv ≠ 0 then (rv, w1) else runVisits fn vs w1

/-- Removes the paths of a list in order; `none` as soon as a removal fails. -/
def removeAll : List CString → World → Option World
  | [], w => some w
  | x :: xs, w =>
    match remove x w with
    | (rv, w1) => if rv ≠ 0 then none else removeAll xs w1

/-- A directory entry name: not empty and without '/'. -/
def validName (n : Name) : Bool := decide (n ≠ []) && decide ((47 : Byte) ∉ n)

mutual
/-- Every directory of the tree names its entries with valid names, no two of
them equal. -/
def Node.wf : Node → Bool
  | .file _ _ _ => true
  | .symlink _ _ => true
  | .dir _ _ es => entriesWf es
/-- The entries of one directory are well formed. -/
def entriesWf : List (Name × Node) → Bool
  | [] => true
  | (n, c) :: rest =>
    validName n && decide (n ∉ entryNames rest) && Node.wf c && entriesWf rest
end

mutual
/-- Every object of the tree is on the device `dev0` and every directory of
the tree is readable. -/
def Node.plain (dev0 : Nat) : Node → Bool
  | .file d _ _ => decide (d = dev0)
  | .symlink d _ => decide (d = dev0)
  | .dir d r es => decide (d = dev0) && r && entriesPlain dev0 es
/-- The entries of one directory are plain. -/
def entriesPlain (dev0 : Nat) : List (Name × Node) → Bool
  | [] => true
  | (_, c) :: rest => Node.plain dev0 c && entriesPlain dev0 rest
end

/-- The names of the directory a path name resolves to. -/
def listing (dir : CString) (w : World) : Option (List Name) :=
  match Node.lookup (parsePath dir) w.root with
  | some (.dir _ _ es) => some (entryNames es)
  | _ => none

/-! ## libcurl -/

/-- What one transfer produces: the `CURLcode` of `curl_easy_perform`, the
HTTP status of the response (0 when there was none) and the bytes handed to
the write callback. -/
structure CurlOutcome where
  code : Nat
  http_status : Nat
  body : List Byte

/-- The outcomes the functions do not control: the value of `PATH_MAX`, the
random values drawn by `mkstemp`, whether `fdopen`, `curl_easy_init` and
`curl_easy_escape` get their memory, what the transport does for a URL and
the text libcurl has for a result code. -/
structure Env where
  PATH_MAX : Nat
  randoms : List Nat
  fdopen_ok : Bool
  curl_init_ok : Bool
  curl_escape_ok : Bool
  perform : CString → CurlOutcome
  curl_easy_strerror : Nat → CString

/-- `fdopen(fd, "w")`: the stream is identified with its descriptor; `NULL`
is `none`. -/
def fdopen (env : Env) (fd : Int) (w : World) : Option Int × World :=
  if env.fdopen_ok then (some fd, w) else (none, { w with errno := .ENOMEM })

/-- `curl_easy_init()`: a fresh handle, or `NULL`. -/
def curl_easy_init (env : Env) (w : World) : Option Nat × World :=
  if env.curl_init_ok then
    (some w.curl_next,
      { w with curl_next := w.curl_next + 1, curl_live := w.curl_live ++ [w.curl_next] })
  else (none, w)

/-- `curl_easy_cleanup(handle)`. -/
def curl_easy_cleanup (handle : Nat) (w : World) : World :=
  { w with curl_live := w.curl_live.filter (fun h => decide (h ≠ handle)),
           curl_cleaned := w.curl_cleaned ++ [handle] }

/-- `curl_easy_perform` on a handle whose `CURLOPT_URL` and
`CURLOPT_WRITEDATA` are `url` and `fp`: the body received is written to the
stream, the result code is returned. -/
def curl_easy_perform (env : Env) (url : CString) (fp : Int) (w : World) : Nat × World :=
  ((env.perform url).code, fwrite (env.perform url).body fp w)

/-- Modelled from the spec: libcurl's `Curl_isunreserved`, part of the escape
routine that is not among the sources: the unreserved characters of RFC 3986,
section 2.3, which percent-encoding leaves as they are. -/
def Curl_isunreserved (c : Byte) : Bool :=
  (48 ≤ c.val ∧ c.val ≤ 57) ∨ (97 ≤ c.val ∧ c.val ≤ 122) ∨ (65 ≤ c.val ∧ c.val ≤ 90) ∨
    c.val = 45 ∨ c.val = 46 ∨ c.val = 95 ∨ c.val = 126

/-- The upper-case hexadecimal digit of a value below 16. -/
def hexDigit (n : Nat) : Byte := if n < 10 then Fin.ofNat (48 + n) else Fin.ofNat (55 + n)

/-- Modelled from the spec: the escape of one byte by libcurl's escape routine,
which is not among the sources: an unreserved byte is itself, any other is
`%XX` with upper-case digits. -/
def escapeByte (c : Byte) : CString :=
  if Curl_isunreserved c then [c] else [37, hexDigit (c.val / 16), hexDigit (c.val % 16)]

/-- Modelled from the spec: libcurl's `curl_easy_escape`, which is not among
the sources. §4.4: the URL is percent-encoded "per the reserved/unsafe-character
rules of URI percent-encoding (space, `/`, `:`, `?`, `#`, etc. become `%XX`
sequences)"; the source cites RFC 3986, 2.1. Every byte that is not an
unreserved character of RFC 3986 becomes `%` and two upper-case hexadecimal
digits. A length of 0 stands for `strlen(string)`; `NULL` is returned when
memory runs out. -/
def curl_easy_escape (env : Env) (_handle : Nat) (string : CString) (inlength : Nat) :
    Option CString :=
  if env.curl_escape_ok then
    some ((string.take (if inlength = 0 then strlen string else inlength)).flatMap escapeByte)
  else none

/-- The value of a hexadecimal digit. -/
def hexVal (c : Byte) : Option Nat :=
  if 48 ≤ c.val ∧ c.val ≤ 57 then some (c.val - 48)
  else if 65 ≤ c.val ∧ c.val ≤ 70 then some (c.val - 55)
  else if 97 ≤ c.val ∧ c.val ≤ 102 then some (c.val - 87)
  else none

/-- Standard percent-decoding, as the specification names it: `%` followed by
two hexadecimal digits is the byte they denote, every other byte is itself. -/
def percent_decode : CString → CString
  | [] => []
  | c :: rest =>
    let decoded := percent_decode rest
    if c = 37 then
      match rest with
      | h :: l :: rest2 =>
        match hexVal h, hexVal l with
        | some a, some b => Fin.ofNat (16 * a + b) :: percent_decode rest2
        | _, _ => c :: decoded
      | _ => c :: decoded
    else c :: decoded
termination_by structural s => s

/-! ## `oscap_acquire.c` -/

/-- `#define TEMP_URL_TEMPLATE "downloaded.XXXXXX"` -/
def TEMP_URL_TEMPLATE : CString := ofStr "downloaded.XXXXXX"

/-- `__unlink_cb` (lines 55-64): removes `fpath`, records a failure in the
error state and returns the value of `remove`. The `stat` buffer, the type
flag and the `FTW` structure are not used. -/
def __unlink_cb (fpath : CString) (_typeflag : FtwFlag) (w : World) : Int × World :=
  match remove fpath w with
  | (rv, w1) =>
    if rv ≠ 0 then
      (rv, oscap_seterr .OSCAP_EFAMILY_GLIBC
        (ofStr "Could not remove " ++ fpath ++ ofStr ". " ++ strerror w1.errno) w1)
    else (rv, w1)

/-- Runs `__unlink_cb` over a list of path names until it returns non-zero. -/
def unlinkAll : List CString → World → Int × World
  | [], w => (0, w)
  | x :: xs, w =>
    match __unlink_cb x .FTW_F w with
    | (rv, w1) => if rv ≠ 0 then (rv, w1) else unlinkAll xs w1

/-- `oscap_acquire_cleanup_dir` (lines 66-75): the handle `*dir_path` is `none`
when `NULL`; the new value of the handle is returned with the new state. The
value of `nftw` is dropped, as in the source. -/
def oscap_acquire_cleanup_dir (dir_path : Option CString) (w : World) :
    Option CString × World :=
  match dir_path with
  | some path =>
    match nftw path __unlink_cb w with
    | (_, w1) => (none, w1)
  | none => (none, w)

/-- `oscap_acquire_url_download` (lines 77-140): returns the file name, `none`
for `NULL`. `fclose(fp)` closes the descriptor of the stream; `malloc` and
`free` have no counterpart. -/
def oscap_acquire_url_download (env : Env) (temp_dir url : CString) (w : World) :
    Option CString × World :=
  let output_filename := snprintf env.PATH_MAX (temp_dir ++ ofStr "/" ++ TEMP_URL_TEMPLATE)
  match umask 0o77 w with
  | (old_mode, w0) =>
  match mkstemp env.randoms output_filename w0 with
  | (output_fd, output_filename, w1) =>
  match umask old_mode w1 with
  | (_, w2) =>
  if output_fd = -1 then
    (none, oscap_seterr .OSCAP_EFAMILY_GLIBC (ofStr "mkstemp failed, " ++ strerror w2.errno) w2)
  else
    match fdopen env output_fd w2 with
    | (none, w3) =>
      let w4 := oscap_seterr .OSCAP_EFAMILY_GLIBC
        (ofStr "fdopen failed, " ++ strerror w3.errno) w3
      match remove output_filename w4 with
      | (rv, w5) =>
        let w6 := if rv ≠ 0 then
            oscap_seterr .OSCAP_EFAMILY_GLIBC
              (ofStr "fdopen failed. Failed to remove temp file " ++ output_filename ++
                ofStr ". " ++ strerror w5.errno) w5
          else w5
        (none, close output_fd w6)
    | (some fp, w3) =>
      match curl_easy_init env w3 with
      | (none, w4) =>
        let w5 := oscap_seterr .OSCAP_EFAMILY_NET (ofStr "Failed to initialize libcurl.") w4
        match remove output_filename w5 with
        | (rv, w6) =>
          let w7 := if rv ≠ 0 then
              oscap_seterr .OSCAP_EFAMILY_GLIBC
                (ofStr "Failed to initialize libcurl. Failed to remove temp file " ++
                  output_filename ++ ofStr ". " ++ strerror w6.errno) w6
            else w6
          (none, close fp w7)
      | (some curl, w4) =>
        match curl_easy_perform env url fp w4 with
        | (res, w5) =>
          if res ≠ 0 then
            let w6 := oscap_seterr .OSCAP_EFAMILY_NET
              (ofStr "Download failed: " ++ env.curl_easy_strerror res) w5
            match remove output_filename w6 with
            | (rv, w7) =>
              let w8 := if rv ≠ 0 then
                  oscap_seterr .OSCAP_EFAMILY_GLIBC
                    (ofStr "Download failed: " ++ env.curl_easy_strerror res ++
                      ofStr ". Failed to remove temp file " ++ output_filename ++
                      ofStr ". " ++ strerror w7.errno) w7
                else w7
              (none, close fp (curl_easy_cleanup curl w8))
          else (some output_filename, close fp (curl_easy_cleanup curl w5))

/-- `oscap_acquire_url_to_filename` (lines 148-171): returns the file name,
`none` for `NULL`. The return at line 165 follows no `curl_easy_cleanup`. -/
def oscap_acquire_url_to_filename (env : Env) (url : CString) (w : World) :
    Option CString × World :=
  match curl_easy_init env w with
  | (none, w1) =>
    (none, oscap_seterr .OSCAP_EFAMILY_NET (ofStr "Failed to initialize libcurl.") w1)
  | (some curl, w1) =>
    match curl_easy_escape env curl url 0 with
    | none =>
      (none, oscap_seterr .OSCAP_EFAMILY_NET (ofStr "Failed to escape the given url " ++ url) w1)
    | some curl_filename =>
      let filename := strdup curl_filename
      (some filename, curl_easy_cleanup curl w1)

/-! ## `oscap_acquire_url_is_supported` -/

/-- `oscap_acquire_url_is_supported` (lines 142-146):
`return !strncmp(url, "http://", strlen("http://"));` -/
def oscap_acquire_url_is_supported (url : CString) : Bool :=
  strncmp url (ofStr "http://") (strlen (ofStr "http://")) == 0

/-! ## libxml2 -/

/-- The node kinds the serialiser meets. -/
inductive xmlElementType where
  | XML_ELEMENT_NODE | XML_TEXT_NODE
  deriving DecidableEq, Repr

/-- A namespace: its URI and its optional short name. -/
structure xmlNs where
  href : CString
  pfx : Option CString
  deriving DecidableEq, Repr

/-- A node of the document heap; `children` and `parent` hold node addresses,
`content` is the text of a text node. -/
structure xmlNode where
  kind : xmlElementType
  name : CString
  ns : Option xmlNs
  nsDef : List xmlNs
  content : CString
  children : List Nat
  parent : Option Nat
  deriving DecidableEq, Repr

/-- The document heap: the node at address `i` is `nodes[i]`. -/
structure Dom where
  nodes : List xmlNode
  deriving DecidableEq, Repr

/-- The children of the node at an address (none for a dangling address). -/
def Dom.childrenOf (dom : Dom) (p : Nat) : List Nat :=
  match dom.nodes.get? p with
  | some node => node.children
  | none => []

/-- The element names of a list of addresses. -/
def Dom.namesOf (dom : Dom) (ps : List Nat) : List CString :=
  ps.filterMap (fun p => (dom.nodes.get? p).map (fun node => node.name))

/-- The text held by an element: the contents of its text children. -/
def Dom.textOf (dom : Dom) (p : Nat) : List CString :=
  (dom.childrenOf p).filterMap (fun c =>
    match dom.nodes.get? c with
    | some node => if node.kind = .XML_TEXT_NODE then some node.content else none
    | none => none)

/-- The node at an address with a child address appended. -/
def Dom.addChild (dom : Dom) (p child : Nat) : Dom :=
  { nodes := dom.nodes.modify (fun node => { node with children := node.children ++ [child] }) p }

/-- `xmlNewTextChild(parent, ns, name, content)`: a new element appended to
the children of `parent`, in the namespace `ns` or, when `ns` is `NULL`, in
that of `parent`; a non-`NULL` content becomes a text child of the new
element. `NULL` when `parent` is `NULL` or not an element. -/
def xmlNewTextChild (parent : Option Nat) (ns : Option xmlNs) (name : CString)
    (content : Option CString) (dom : Dom) : Option Nat × Dom :=
  match parent with
  | none => (none, dom)
  | some p =>
    match dom.nodes.get? p with
    | none => (none, dom)
    | some pnode =>
      if pnode.kind ≠ .XML_ELEMENT_NODE then (none, dom)
      else
        let cur := dom.nodes.length
        let curNs := match ns with
          | none => pnode.ns
          | some x => some x
        match content with
        | none =>
          let elem : xmlNode := ⟨.XML_ELEMENT_NODE, name, curNs, [], [], [], some p⟩
          (some cur, Dom.addChild { nodes := dom.nodes ++ [elem] } p cur)
        | some text =>
          let elem : xmlNode := ⟨.XML_ELEMENT_NODE, name, curNs, [], [], [cur + 1], some p⟩
          let txt : xmlNode := ⟨.XML_TEXT_NODE, ofStr "text", none, [], text, [], some cur⟩
          (some cur, Dom.addChild { nodes := dom.nodes ++ [elem, txt] } p cur)

/-- The search of `xmlSearchNsByHref` from a node towards the root, bounded by
the size of the heap. -/
def searchNsByHref (dom : Dom) (href : CString) : Nat → Option Nat → Option xmlNs
  | 0, _ => none
  | _ + 1, none => none
  | fuel + 1, some p =>
    match dom.nodes.get? p with
    | none => none
    | some node =>
      match node.nsDef.find? (fun x => decide (x.href = href)) with
      | some x => some x
      | none =>
        match node.ns with
        | some x => if x.href = href then some x else searchNsByHref dom href fuel node.parent
        | none => searchNsByHref dom href fuel node.parent

/-- `xmlSearchNsByHref(doc, node, href)`: the namespace with the given URI
declared on `node` or the nearest ancestor, `NULL` when there is none. -/
def xmlSearchNsByHref (_doc : Nat) (node : Option Nat) (href : CString) (dom : Dom) :
    Option xmlNs :=
  searchNsByHref dom href (dom.nodes.length + 1) node

/-! ## `oval_generator.c` -/

/-- `struct oval_generator`; a `NULL` field is `none`. -/
structure oval_generator where
  product_name : Option CString
  product_version : Option CString
  schema_version : Option CString
  timestamp : Option CString
  deriving DecidableEq, Repr

/-- `oval_generator_to_dom` (lines 137-154): returns `gen_node`; the four
field elements are created with `parent` as their first argument, as in the
source. `OVAL_COMMON_NAMESPACE` is defined in a header that is not among the
sources and is a parameter. -/
def oval_generator_to_dom (OVAL_COMMON_NAMESPACE : CString) (generator : oval_generator)
    (doc : Nat) (parent : Option Nat) (dom : Dom) : Option Nat × Dom :=
  match xmlNewTextChild parent none (ofStr "generator") none dom with
  | (gen_node, dom1) =>
    let ns_common := xmlSearchNsByHref doc parent OVAL_COMMON_NAMESPACE dom1
    let dom2 := match generator.product_name with
      | some v => (xmlNewTextChild parent ns_common (ofStr "product_name") (some v) dom1).2
      | none => dom1
    let dom3 := match generator.product_version with
      | some v => (xmlNewTextChild parent ns_common (ofStr "product_version") (some v) dom2).2
      | none => dom2
    let dom4 := match generator.schema_version with
      | some v => (xmlNewTextChild parent ns_common (ofStr "schema_version") (some v) dom3).2
      | none => dom3
    let dom5 := match generator.timestamp with
      | some v => (xmlNewTextChild parent ns_common (ofStr "timestamp") (some v) dom4).2
      | none => dom4
    (gen_node, dom5)

/-! ## Sample states -/

/-- A state over a given tree in which the operating system refuses the
removals and creations selected by the two predicates. -/
def worldOf (root : Node) (denyRemove denyCreate : Path → Bool) : World :=
  { root := root, denyRemove := denyRemove, denyCreate := denyCreate, umask := 0o22,
    errno := .ENOENT, next_fd := 3, open_fds := [], removeLog := [], curl_next := 0,
    curl_live := [], curl_cleaned := [], last_error := none }

/-- A state over a given tree in which nothing is refused. -/
def quietWorld (root : Node) : World := worldOf root (fun _ => false) (fun _ => false)

/-- `/tmp/oscap.aaaaaa`, an empty temporary directory. -/
def tmpTree : Node :=
  .dir 1 true [(ofStr "tmp", .dir 1 true [(ofStr "oscap.aaaaaa", .dir 1 true [])])]

/-- An environment in which every allocation succeeds and the transport
delivers the given outcome. -/
def envOf (outcome : CurlOutcome) : Env :=
  { PATH_MAX := 4096, randoms := [7, 8], fdopen_ok := true, curl_init_ok := true,
    curl_escape_ok := true, perform := fun _ => outcome,
    curl_easy_strerror := fun _ => ofStr "Couldn't connect to server" }

/-- An environment in which `curl_easy_escape` runs out of memory. -/
def envEscapeFails : Env := { envOf ⟨0, 200, []⟩ with curl_escape_ok := false }

/-- The namespace URI of the OVAL common schema. -/
def ovalCommonHref : CString := ofStr "http://oval.mitre.org/XMLSchema/oval-common-5"

/-- A document holding one element, `oval_definitions`, which declares the
OVAL common namespace. -/
def definitionsDom : Dom :=
  { nodes := [⟨.XML_ELEMENT_NODE, ofStr "oval_definitions", none,
      [⟨ovalCommonHref, some (ofStr "oval")⟩], [], [], none⟩] }

/-- A generator as `oval_generator_new` fills it: no product version. -/
def newGenerator : oval_generator :=
  { product_name := some (ofStr "OpenSCAP"), product_version := none,
    schema_version := some (ofStr "5.10"), timestamp := some (ofStr "2012-06-01T12:00:00") }

/-- The path name of the sample temporary directory. -/
def sampleDir : CString := ofStr "/tmp/oscap.aaaaaa"

/-- A temporary directory holding two files and a subdirectory, which holds a
file and a symbolic link to `/etc/passwd`. -/
def sampleSubtree : Node :=
  .dir 1 true
    [(ofStr "a.xml", .file 1 0o600 [1, 2]),
     (ofStr "sub", .dir 1 true
        [(ofStr "b.xml", .file 1 0o600 [3]),
         (ofStr "link", .symlink 1 (ofStr "/etc/passwd"))]),
     (ofStr "c.xml", .file 1 0o600 [])]

/-- A file system holding `/etc/passwd` and the sample temporary directory. -/
def sampleTree : Node :=
  .dir 1 true
    [(ofStr "etc", .dir 1 true [(ofStr "passwd", .file 1 0o644 [9])]),
     (ofStr "tmp", .dir 1 true [(ofStr "oscap.aaaaaa", sampleSubtree)])]

/-- The sample file system in a state where the operating system refuses to
remove `/tmp/oscap.aaaaaa/sub/b.xml`. -/
def lockedWorld : World :=
  worldOf sampleTree
    (fun p => decide (p = [ofStr "tmp", ofStr "oscap.aaaaaa", ofStr "sub", ofStr "b.xml"]))
    (fun _ => false)

/-- The empty temporary directory in a state where the operating system
refuses every removal at or below `/tmp/oscap.aaaaaa`. -/
def refusingWorld : World :=
  worldOf tmpTree (fun p => (parsePath sampleDir).isPrefixOf p) (fun _ => false)

/-! ## Lemmas on C strings -/

theorem strlen_of_no_nul (s : CString) (h : ∀ b ∈ s, b ≠ 0) : strlen s = s.length := by
  unfold strlen
  induction s with
  | nil => rfl
  | cons a t ih =>
    have ha : a ≠ 0 := h a (List.mem_cons_self _ _)
    have ht : ∀ b ∈ t, b ≠ 0 := fun b hb => h b (List.mem_cons_of_mem _ hb)
    have hd : decide (a ≠ 0) = true := decide_eq_true ha
    rw [List.takeWhile_cons]
    simp only [hd, if_true, List.length_cons, ih ht]

theorem strncmp_eq_zero_iff (s2 : CString) (h : ∀ b ∈ s2, b ≠ 0) (s1 : CString) :
    strncmp s1 s2 s2.length = 0 ↔ s1.take s2.length = s2 := by
  induction s2 generalizing s1 with
  | nil => simp [strncmp]
  | cons b t ih =>
    have hb : b ≠ 0 := h b (List.mem_cons_self _ _)
    have ht : ∀ c ∈ t, c ≠ 0 := fun c hc => h c (List.mem_cons_of_mem _ hc)
    cases s1 with
    | nil =>
      have hne : ((0 : Byte).val : Int) - (b.val : Int) ≠ 0 := by
        have : b.val ≠ 0 := fun hv => hb (Fin.ext hv)
        simp only [Fin.val_zero]; omega
      have hv : b.val ≠ 0 := fun hv => hb (Fin.ext hv)
      simp [strncmp, Ne.symm hb, hne, hv]
    | cons a s =>
      by_cases hab : a = b
      · subst hab
        simp [strncmp, hb, ih ht s]
      · have hne : (a.val : Int) - (b.val : Int) ≠ 0 := by
          have : a.val ≠ b.val := fun hv => hab (Fin.ext hv)
          omega
        simp [strncmp, hab, hne]

/-! ## Lemmas on percent-encoding -/

theorem hexVal_hexDigit : ∀ n : Fin 16, hexVal (hexDigit n.val) = some n.val := by decide

theorem hexDigit_ne_zero : ∀ n : Fin 16, hexDigit n.val ≠ 0 := by decide

theorem escapeByte_no_nul : ∀ c : Byte, ∀ b ∈ escapeByte c, b ≠ 0 := by
  intro c b hb
  unfold escapeByte at hb
  split at hb
  · rename_i hu
    simp only [List.mem_singleton] at hb
    subst hb
    intro h0
    subst h0
    revert hu
    decide
  · simp only [List.mem_cons, List.mem_singleton, List.not_mem_nil, or_false] at hb
    have h1 : c.val / 16 < 16 := by omega
    have h2 : c.val % 16 < 16 := by omega
    rcases hb with hb | hb | hb
    · subst hb; decide
    · subst hb; exact hexDigit_ne_zero ⟨_, h1⟩
    · subst hb; exact hexDigit_ne_zero ⟨_, h2⟩

theorem percent_decode_cons_of_ne (c : Byte) (hc : c ≠ 37) (rest : CString) :
    percent_decode (c :: rest) = c :: percent_decode rest := by
  match rest with
  | [] => simp [percent_decode]
  | [_] => simp [percent_decode]
  | _ :: _ :: _ => simp [percent_decode, hc]

theorem percent_decode_escapeByte (c : Byte) (rest : CString) :
    percent_decode (escapeByte c ++ rest) = c :: percent_decode rest := by
  unfold escapeByte
  split
  · rename_i hu
    have hc : c ≠ 37 := by
      intro h; subst h; revert hu; decide
    simpa using percent_decode_cons_of_ne c hc rest
  · have h1 : c.val / 16 < 16 := by omega
    have h2 : c.val % 16 < 16 := by omega
    have e1 := hexVal_hexDigit ⟨_, h1⟩
    have e2 := hexVal_hexDigit ⟨_, h2⟩
    simp only at e1 e2
    have hv : (Fin.ofNat (16 * (c.val / 16) + c.val % 16) : Byte) = c := by
      apply Fin.ext
      simp only [Fin.ofNat, Fin.val_mk]
      omega
    simp [percent_decode, e1, e2, hv]

theorem percent_decode_escape (s : CString) :
    percent_decode (s.flatMap escapeByte) = s := by
  induction s with
  | nil => simp [percent_decode]
  | cons c t ih => rw [List.flatMap_cons, percent_decode_escapeByte, ih]

theorem escape_no_nul (s : CString) : ∀ b ∈ s.flatMap escapeByte, b ≠ 0 := by
  intro b hb
  rw [List.mem_flatMap] at hb
  obtain ⟨c, _, hc⟩ := hb
  exact escapeByte_no_nul c b hc

theorem hexDigit_safe : ∀ n : Fin 16,
    hexDigit n.val ≠ 47 ∧ hexDigit n.val ≠ 32 ∧ hexDigit n.val ≠ 58 ∧ hexDigit n.val ≠ 63 ∧
      hexDigit n.val ≠ 35 := by decide

theorem unreserved_safe (c : Byte) (hu : Curl_isunreserved c = true) :
    c ≠ 47 ∧ c ≠ 32 ∧ c ≠ 58 ∧ c ≠ 63 ∧ c ≠ 35 := by
  refine ⟨?_, ?_, ?_, ?_, ?_⟩ <;> (intro h; subst h; revert hu; decide)

theorem escapeByte_mem_safe (c : Byte) : ∀ b ∈ escapeByte c,
    b ≠ 47 ∧ b ≠ 32 ∧ b ≠ 58 ∧ b ≠ 63 ∧ b ≠ 35 := by
  intro b hb
  unfold escapeByte at hb
  split at hb
  · rename_i hu
    simp only [List.mem_singleton] at hb
    subst hb
    exact unreserved_safe b hu
  · simp only [List.mem_cons, List.mem_singleton, List.not_mem_nil, or_false] at hb
    have h1 : c.val / 16 < 16 := by omega
    have h2 : c.val % 16 < 16 := by omega
    rcases hb with hb | hb | hb
    · subst hb; decide
    · subst hb; exact hexDigit_safe ⟨_, h1⟩
    · subst hb; exact hexDigit_safe ⟨_, h2⟩

theorem escape_safe (s : CString) : ∀ b ∈ s.flatMap escapeByte,
    b ≠ 47 ∧ b ≠ 32 ∧ b ≠ 58 ∧ b ≠ 63 ∧ b ≠ 35 := by
  intro b hb
  rw [List.mem_flatMap] at hb
  obtain ⟨c, _, hc⟩ := hb
  exact escapeByte_mem_safe c b hc

theorem strdup_of_no_nul (s : CString) (h : ∀ b ∈ s, b ≠ 0) : strdup s = s := by
  unfold strdup
  rw [strlen_of_no_nul s h, List.take_length]

/-- The result of `oscap_acquire_url_to_filename` when libcurl gets its memory. -/
theorem url_to_filename_eq (env : Env) (url : CString) (w : World)
    (hinit : env.curl_init_ok = true) (hesc : env.curl_escape_ok = true)
    (hnul : ∀ b ∈ url, b ≠ 0) :
    (oscap_acquire_url_to_filename env url w).1 = some (url.flatMap escapeByte) := by
  unfold oscap_acquire_url_to_filename curl_easy_init curl_easy_escape
  simp only [hinit, hesc, if_true]
  rw [strlen_of_no_nul url hnul, List.take_length, strdup_of_no_nul _ (escape_no_nul url)]

/-! ## Lemmas on path names -/

theorem splitSlash_ne_nil (s : CString) : splitSlash s ≠ [] := by
  cases s with
  | nil => simp [splitSlash]
  | cons c cs =>
    unfold splitSlash
    split
    · simp
    · split <;> simp

theorem splitSlash_append_slash (a b : CString) :
    splitSlash (a ++ 47 :: b) = splitSlash a ++ splitSlash b := by
  induction a with
  | nil => simp [splitSlash]
  | cons c cs ih =>
    by_cases hc : c = 47
    · simp [splitSlash, hc, ih]
    · have hne := splitSlash_ne_nil cs
      cases hs : splitSlash cs with
      | nil => exact absurd hs hne
      | cons h t =>
        have e1 : splitSlash (c :: (cs ++ 47 :: b)) =
            (match splitSlash (cs ++ 47 :: b) with
              | [] => [[c]]
              | h :: t => (c :: h) :: t) := by
          simp only [splitSlash, hc, if_false]
        have e2 : splitSlash (c :: cs) =
            (match splitSlash cs with
              | [] => [[c]]
              | h :: t => (c :: h) :: t) := by
          simp only [splitSlash, hc, if_false]
        rw [List.cons_append, e1, e2, ih, hs]
        rfl

theorem splitSlash_of_no_slash (n : CString) (h : (47 : Byte) ∉ n) : splitSlash n = [n] := by
  induction n with
  | nil => rfl
  | cons c cs ih =>
    have hc : c ≠ 47 := fun e => h (e ▸ List.mem_cons_self _ _)
    have hcs : (47 : Byte) ∉ cs := fun e => h (List.mem_cons_of_mem _ e)
    simp [splitSlash, hc, ih hcs]

theorem parsePath_append_slash (a b : CString) :
    parsePath (a ++ 47 :: b) = parsePath a ++ parsePath b := by
  unfold parsePath
  rw [splitSlash_append_slash, List.filter_append]

theorem parsePath_of_validName (n : Name) (h : validName n = true) : parsePath n = [n] := by
  unfold validName at h
  simp only [Bool.and_eq_true, decide_eq_true_eq] at h
  unfold parsePath
  rw [splitSlash_of_no_slash n h.2]
  simp [h.1]

theorem parsePath_child (dpath : CString) (n : Name) (h : validName n = true) :
    parsePath (dpath ++ 47 :: n) = parsePath dpath ++ [n] := by
  rw [parsePath_append_slash, parsePath_of_validName n h]

/-! ## Lemmas on directory entries -/

theorem findEntry_mapEntry_same (n : Name) (f : Node → Node) (es : List (Name × Node)) :
    findEntry n (mapEntry n f es) = (findEntry n es).map f := by
  induction es with
  | nil => rfl
  | cons e rest ih =>
    obtain ⟨m, c⟩ := e
    by_cases h : m = n
    · simp [findEntry, mapEntry, h]
    · simp [findEntry, mapEntry, h, ih]

theorem findEntry_mapEntry_ne (m n : Name) (h : m ≠ n) (f : Node → Node)
    (es : List (Name × Node)) : findEntry m (mapEntry n f es) = findEntry m es := by
  induction es with
  | nil => rfl
  | cons e rest ih =>
    obtain ⟨k, c⟩ := e
    by_cases hk : k = n
    · subst hk
      have hkm : ¬ k = m := fun e => h e.symm
      simp [findEntry, mapEntry, hkm]
    · by_cases hkm : k = m
      · subst hkm
        simp [findEntry, mapEntry, hk]
      · simp [findEntry, mapEntry, hk, hkm, ih]

theorem findEntry_dropEntry_same (n : Name) (es : List (Name × Node)) :
    findEntry n (dropEntry n es) = none := by
  induction es with
  | nil => rfl
  | cons e rest ih =>
    obtain ⟨k, c⟩ := e
    by_cases hk : k = n
    · simpa [dropEntry, List.filter_cons, hk] using ih
    · have : dropEntry n ((k, c) :: rest) = (k, c) :: dropEntry n rest := by
        simp [dropEntry, List.filter_cons, hk]
      rw [this]
      simp [findEntry, hk, ih]

theorem findEntry_dropEntry_ne (m n : Name) (h : m ≠ n) (es : List (Name × Node)) :
    findEntry m (dropEntry n es) = findEntry m es := by
  induction es with
  | nil => rfl
  | cons e rest ih =>
    obtain ⟨k, c⟩ := e
    by_cases hk : k = n
    · have : dropEntry n ((k, c) :: rest) = dropEntry n rest := by
        simp [dropEntry, List.filter_cons, hk]
      rw [this, ih]
      have hkm : ¬ k = m := fun e => h (e.symm.trans hk)
      simp [findEntry, hkm]
    · have : dropEntry n ((k, c) :: rest) = (k, c) :: dropEntry n rest := by
        simp [dropEntry, List.filter_cons, hk]
      rw [this]
      by_cases hkm : k = m
      · simp [findEntry, hkm]
      · simp [findEntry, hkm, ih]

theorem dropEntry_mapEntry (n : Name) (f : Node → Node) (es : List (Name × Node)) :
    dropEntry n (mapEntry n f es) = dropEntry n es := by
  induction es with
  | nil => rfl
  | cons e rest ih =>
    obtain ⟨k, c⟩ := e
    by_cases hk : k = n
    · simp [dropEntry, mapEntry, List.filter_cons, hk]
    · have ih2 : List.filter (fun e => decide (e.1 ≠ n)) (mapEntry n f rest) =
          List.filter (fun e => decide (e.1 ≠ n)) rest := ih
      simp only [dropEntry, mapEntry, hk, if_false, List.filter_cons, ih2]

theorem dropEntry_dropEntry (n : Name) (es : List (Name × Node)) :
    dropEntry n (dropEntry n es) = dropEntry n es := by
  simp [dropEntry, List.filter_filter]

theorem mapEntry_mapEntry (n : Name) (f g : Node → Node) (es : List (Name × Node)) :
    mapEntry n f (mapEntry n g es) = mapEntry n (fun c => f (g c)) es := by
  induction es with
  | nil => rfl
  | cons e rest ih =>
    obtain ⟨k, c⟩ := e
    by_cases hk : k = n
    · simp [mapEntry, hk]
    · simp [mapEntry, hk, ih]

theorem mapEntry_congr (n : Name) (f g : Node → Node) (h : ∀ c, f c = g c)
    (es : List (Name × Node)) : mapEntry n f es = mapEntry n g es := by
  have : f = g := funext h
  rw [this]

theorem dropEntry_of_not_mem (n : Name) (es : List (Name × Node)) (h : n ∉ entryNames es) :
    dropEntry n es = es := by
  unfold dropEntry
  rw [List.filter_eq_self]
  intro e he
  have : e.1 ≠ n := fun heq => h (heq ▸ List.mem_map_of_mem (fun e => e.1) he)
  simpa using this

theorem findEntry_eq_none_iff (n : Name) (es : List (Name × Node)) :
    findEntry n es = none ↔ n ∉ entryNames es := by
  induction es with
  | nil => simp [findEntry, entryNames]
  | cons e rest ih =>
    obtain ⟨k, c⟩ := e
    by_cases hk : k = n
    · simp [findEntry, entryNames, hk]
    · have hnk : ¬ n = k := fun e => hk e.symm
      simp only [findEntry, hk, if_false, ih, entryNames, List.map_cons, List.mem_cons, hnk,
        false_or]

/-! ## Lemmas on trees -/

theorem lookup_nil (r : Node) : Node.lookup [] r = some r := by
  cases r <;> rfl

theorem lookup_cons_dir (n : Name) (q : Path) (d : Nat) (rd : Bool) (es : List (Name × Node)) :
    Node.lookup (n :: q) (.dir d rd es) =
      (match findEntry n es with
        | some c => Node.lookup q c
        | none => none) := by
  simp [Node.lookup]

theorem lookup_cons_of_not_dir (n : Name) (q : Path) (r : Node)
    (h : ∀ d rd es, r ≠ .dir d rd es) : Node.lookup (n :: q) r = none := by
  cases r with
  | file d m c => rfl
  | symlink d t => rfl
  | dir d rd es => exact absurd rfl (h d rd es)

theorem eraseAt_single_dir (n : Name) (d : Nat) (rd : Bool) (es : List (Name × Node)) :
    Node.eraseAt [n] (.dir d rd es) = .dir d rd (dropEntry n es) := by
  simp [Node.eraseAt]

theorem eraseAt_cons_cons_dir (n m : Name) (q : Path) (d : Nat) (rd : Bool)
    (es : List (Name × Node)) :
    Node.eraseAt (n :: m :: q) (.dir d rd es) =
      .dir d rd (mapEntry n (Node.eraseAt (m :: q)) es) := by
  simp [Node.eraseAt]

theorem eraseAt_of_not_dir (p : Path) (r : Node) (h : ∀ d rd es, r ≠ .dir d rd es) :
    Node.eraseAt p r = r := by
  cases r with
  | file d m c => cases p <;> rfl
  | symlink d t => cases p <;> rfl
  | dir d rd es => exact absurd rfl (h d rd es)

theorem lookup_append (p q : Path) (r t : Node) (h : Node.lookup p r = some t) :
    Node.lookup (p ++ q) r = Node.lookup q t := by
  induction p generalizing r with
  | nil =>
    rw [lookup_nil] at h
    cases h
    rfl
  | cons n p ih =>
    cases r with
    | file d m c => simp [Node.lookup] at h
    | symlink d tg => simp [Node.lookup] at h
    | dir d rd es =>
      rw [lookup_cons_dir] at h
      rw [List.cons_append, lookup_cons_dir]
      cases hf : findEntry n es with
      | none => rw [hf] at h; simp at h
      | some c =>
        rw [hf] at h
        exact ih c h

theorem lookup_eraseAt_under (p q : Path) (hp : p ≠ []) (r : Node) :
    Node.lookup (p ++ q) (Node.eraseAt p r) = none := by
  induction p generalizing r with
  | nil => exact absurd rfl hp
  | cons n p ih =>
    cases r with
    | file d m c => cases p <;> simp [Node.eraseAt, Node.lookup]
    | symlink d tg => cases p <;> simp [Node.eraseAt, Node.lookup]
    | dir d rd es =>
      cases p with
      | nil =>
        rw [eraseAt_single_dir, List.cons_append, lookup_cons_dir, findEntry_dropEntry_same]
      | cons m p =>
        rw [eraseAt_cons_cons_dir, List.cons_append, lookup_cons_dir, findEntry_mapEntry_same]
        cases hf : findEntry n es with
        | none => rfl
        | some c => exact ih (by simp) c

theorem lookup_eraseAt_apart (p q : Path) (r : Node) (h1 : ¬ p <+: q) (h2 : ¬ q <+: p) :
    Node.lookup q (Node.eraseAt p r) = Node.lookup q r := by
  induction p generalizing q r with
  | nil => exact absurd (List.nil_prefix) h1
  | cons n p ih =>
    cases q with
    | nil => exact absurd (List.nil_prefix) h2
    | cons m q =>
      cases r with
      | file d mo c => cases p <;> simp [Node.eraseAt]
      | symlink d tg => cases p <;> simp [Node.eraseAt]
      | dir d rd es =>
        by_cases hmn : m = n
        · subst hmn
          have h1' : ¬ p <+: q := fun h => h1 ((List.prefix_cons_inj m).mpr h)
          have h2' : ¬ q <+: p := fun h => h2 ((List.prefix_cons_inj m).mpr h)
          cases p with
          | nil => exact absurd (List.nil_prefix) h1'
          | cons k p =>
            rw [eraseAt_cons_cons_dir, lookup_cons_dir, lookup_cons_dir,
              findEntry_mapEntry_same]
            cases hf : findEntry m es with
            | none => rfl
            | some c => exact ih q c h1' h2'
        · cases p with
          | nil =>
            rw [eraseAt_single_dir, lookup_cons_dir, lookup_cons_dir,
              findEntry_dropEntry_ne m n hmn]
          | cons k p =>
            rw [eraseAt_cons_cons_dir, lookup_cons_dir, lookup_cons_dir,
              findEntry_mapEntry_ne m n hmn]

theorem lookup_eraseAt_none (p q : Path) (r : Node) (h : Node.lookup q r = none) :
    Node.lookup q (Node.eraseAt p r) = none := by
  induction p generalizing q r with
  | nil => cases r <;> simpa [Node.eraseAt] using h
  | cons n p ih =>
    cases q with
    | nil => rw [lookup_nil] at h; cases h
    | cons m q =>
      cases r with
      | file d mo c => cases p <;> simp [Node.eraseAt, Node.lookup]
      | symlink d tg => cases p <;> simp [Node.eraseAt, Node.lookup]
      | dir d rd es =>
        rw [lookup_cons_dir] at h
        by_cases hmn : m = n
        · subst hmn
          cases p with
          | nil => rw [eraseAt_single_dir, lookup_cons_dir, findEntry_dropEntry_same]
          | cons k p =>
            rw [eraseAt_cons_cons_dir, lookup_cons_dir, findEntry_mapEntry_same]
            cases hf : findEntry m es with
            | none => rfl
            | some c =>
              rw [hf] at h
              exact ih q c h
        · cases p with
          | nil =>
            rw [eraseAt_single_dir, lookup_cons_dir, findEntry_dropEntry_ne m n hmn]
            exact h
          | cons k p =>
            rw [eraseAt_cons_cons_dir, lookup_cons_dir, findEntry_mapEntry_ne m n hmn]
            exact h

theorem lookup_eraseAt_isSome (p q : Path) (r : Node) (h : (Node.lookup q r).isSome = true)
    (h1 : ¬ p <+: q) : (Node.lookup q (Node.eraseAt p r)).isSome = true := by
  induction p generalizing q r with
  | nil => exact absurd (List.nil_prefix) h1
  | cons n p ih =>
    cases q with
    | nil => rw [lookup_nil]; rfl
    | cons m q =>
      cases r with
      | file d mo c => simp [Node.lookup] at h
      | symlink d tg => simp [Node.lookup] at h
      | dir d rd es =>
        rw [lookup_cons_dir] at h
        by_cases hmn : m = n
        · subst hmn
          have h1' : ¬ p <+: q := fun h => h1 ((List.prefix_cons_inj m).mpr h)
          cases p with
          | nil => exact absurd (List.nil_prefix) h1'
          | cons k p =>
            rw [eraseAt_cons_cons_dir, lookup_cons_dir, findEntry_mapEntry_same]
            cases hf : findEntry m es with
            | none => rw [hf] at h; simp at h
            | some c =>
              rw [hf] at h
              exact ih q c h h1'
        · cases p with
          | nil =>
            rw [eraseAt_single_dir, lookup_cons_dir, findEntry_dropEntry_ne m n hmn]
            exact h
          | cons k p =>
            rw [eraseAt_cons_cons_dir, lookup_cons_dir, findEntry_mapEntry_ne m n hmn]
            exact h

theorem eraseAt_eraseAt_under (p x : Path) (hp : p ≠ []) (r : Node) :
    Node.eraseAt p (Node.eraseAt (p ++ x) r) = Node.eraseAt p r := by
  induction p generalizing r with
  | nil => exact absurd rfl hp
  | cons n p ih =>
    cases r with
    | file d mo c =>
      rw [eraseAt_of_not_dir (n :: p ++ x) _ (by intro d rd es h; cases h)]
    | symlink d tg =>
      rw [eraseAt_of_not_dir (n :: p ++ x) _ (by intro d rd es h; cases h)]
    | dir d rd es =>
      cases p with
      | nil =>
        cases x with
        | nil =>
          simp only [List.append_nil, eraseAt_single_dir, dropEntry_dropEntry]
        | cons k x =>
          show Node.eraseAt [n] (Node.eraseAt (n :: k :: x) (.dir d rd es)) = _
          rw [eraseAt_cons_cons_dir, eraseAt_single_dir, eraseAt_single_dir, dropEntry_mapEntry]
      | cons m p =>
        show Node.eraseAt (n :: m :: p) (Node.eraseAt (n :: m :: (p ++ x)) (.dir d rd es)) = _
        rw [eraseAt_cons_cons_dir, eraseAt_cons_cons_dir, eraseAt_cons_cons_dir,
          mapEntry_mapEntry]
        congr 1
        apply mapEntry_congr
        intro c
        exact ih (by simp) c

/-! ## Lemmas on the walk -/

theorem runVisits_append (fn : CString → FtwFlag → World → Int × World)
    (a b : List (CString × FtwFlag)) (w : World) :
    runVisits fn (a ++ b) w =
      (match runVisits fn a w with
        | (rv, w1) => if rv ≠ 0 then (rv, w1) else runVisits fn b w1) := by
  induction a generalizing w with
  | nil => simp [runVisits]
  | cons v vs ih =>
    simp only [List.cons_append, runVisits]
    cases hfn : fn v.1 v.2 w with
    | mk rv w1 =>
      by_cases hrv : rv = 0
      · simp [hrv, ih]
      · simp [hrv]

mutual
theorem ftw_walk_eq_runVisits (fn : CString → FtwFlag → World → Int × World) (dev0 : Nat)
    (fpath : CString) : ∀ (t : Node) (w : World),
      ftw_walk fn dev0 fpath t w = runVisits fn (ftw_visits dev0 fpath t) w
  | .file d _ _, w => by
    by_cases hd : d = dev0
    · cases hfn : fn fpath .FTW_F w with
      | mk rv w1 =>
        by_cases hrv : rv = 0 <;> simp [ftw_walk, ftw_visits, runVisits, hd, hfn, hrv]
    · simp [ftw_walk, ftw_visits, runVisits, hd]
  | .symlink d _, w => by
    by_cases hd : d = dev0
    · cases hfn : fn fpath .FTW_SL w with
      | mk rv w1 =>
        by_cases hrv : rv = 0 <;> simp [ftw_walk, ftw_visits, runVisits, hd, hfn, hrv]
    · simp [ftw_walk, ftw_visits, runVisits, hd]
  | .dir d r es, w => by
    by_cases hd : d = dev0
    · cases r with
      | false =>
        cases hfn : fn fpath .FTW_DNR w with
        | mk rv w1 =>
          by_cases hrv : rv = 0 <;> simp [ftw_walk, ftw_visits, runVisits, hd, hfn, hrv]
      | true =>
        have ih := ftw_dir_eq_runVisits fn dev0 fpath es w
        simp only [ftw_walk, ftw_visits, hd, ne_eq, not_true_eq_false, if_false, ih,
          runVisits_append, Bool.true_eq_false]
        cases hrun : runVisits fn (ftw_visits_dir dev0 fpath es) w with
        | mk rv w1 =>
          by_cases hrv : rv = 0
          · cases hfn : fn fpath .FTW_DP w1 with
            | mk rv2 w2 =>
              by_cases hrv2 : rv2 = 0 <;> simp [runVisits, hrv, hfn, hrv2]
          · simp [hrv]
    · simp [ftw_walk, ftw_visits, runVisits, hd]
theorem ftw_dir_eq_runVisits (fn : CString → FtwFlag → World → Int × World) (dev0 : Nat)
    (dpath : CString) : ∀ (es : List (Name × Node)) (w : World),
      ftw_dir fn dev0 dpath es w = runVisits fn (ftw_visits_dir dev0 dpath es) w
  | [], w => by simp [ftw_dir, ftw_visits_dir, runVisits]
  | (n, c) :: rest, w => by
    have ih1 := ftw_walk_eq_runVisits fn dev0 (dpath ++ 47 :: n) c w
    simp only [ftw_dir, ftw_visits_dir, ih1, runVisits_append]
    cases hrun : runVisits fn (ftw_visits dev0 (dpath ++ 47 :: n) c) w with
    | mk rv w1 =>
      by_cases hrv : rv = 0
      · simp [hrv, ftw_dir_eq_runVisits fn dev0 dpath rest w1]
      · simp [hrv]
end

theorem runVisits_unlink (vs : List (CString × FtwFlag)) (w : World) :
    runVisits __unlink_cb vs w = unlinkAll (vs.map (fun v => v.1)) w := by
  induction vs generalizing w with
  | nil => rfl
  | cons v vs ih =>
    simp only [runVisits, List.map_cons, unlinkAll]
    have : __unlink_cb v.1 v.2 w = __unlink_cb v.1 .FTW_F w := rfl
    rw [this]
    cases hcb : __unlink_cb v.1 .FTW_F w with
    | mk rv w1 =>
      by_cases hrv : rv = 0
      · simp [hrv, ih]
      · simp [hrv]

/-- The walk of `oscap_acquire_cleanup_dir` is the sequence of `__unlink_cb`
calls on the visited path names. -/
theorem nftw_unlink_eq (dirpath : CString) (w : World) (t : Node) (hne : dirpath ≠ [])
    (hlook : Node.lookup (parsePath dirpath) w.root = some t) :
    nftw dirpath __unlink_cb w = unlinkAll (visits dirpath t) w := by
  unfold nftw
  simp only [hne, if_false, hlook]
  rw [ftw_walk_eq_runVisits, runVisits_unlink]
  rfl

/-! ## Lemmas on `remove` -/

/-- What `remove` does, by cases on the file system. -/
theorem remove_cases (x : CString) (w : World) :
    ((remove x w).1 = 0 ∧ parsePath x ≠ [] ∧ w.denyRemove (parsePath x) = false ∧
      (Node.lookup (parsePath x) w.root).isSome = true ∧
      (remove x w).2 = { w with removeLog := w.removeLog ++ [x],
                                root := Node.eraseAt (parsePath x) w.root }) ∨
    ((remove x w).1 = -1 ∧
      ∃ e : Errno, (remove x w).2 = { w with removeLog := w.removeLog ++ [x], errno := e }) := by
  cases hl : Node.lookup (parsePath x) w.root with
  | none => right; simp [remove, hl]
  | some t =>
    by_cases hp : parsePath x = []
    · right
      have hl2 := hl
      rw [hp] at hl2
      simp [remove, hp, hl2]
    · cases hd : w.denyRemove (parsePath x) with
      | true => right; simp [remove, hl, hp, hd]
      | false =>
        cases t with
        | file d m c => left; simp [remove, hl, hp, hd]
        | symlink d tg => left; simp [remove, hl, hp, hd]
        | dir d rd es =>
          cases es with
          | nil => left; simp [remove, hl, hp, hd]
          | cons e rest => right; simp [remove, hl, hp, hd]

theorem remove_ok (x : CString) (w : World) (h : (remove x w).1 = 0) :
    parsePath x ≠ [] ∧ w.denyRemove (parsePath x) = false ∧
      (Node.lookup (parsePath x) w.root).isSome = true ∧
      (remove x w).2 = { w with removeLog := w.removeLog ++ [x],
                                root := Node.eraseAt (parsePath x) w.root } := by
  rcases remove_cases x w with h1 | h1
  · exact h1.2
  · rw [h1.1] at h; cases h

theorem remove_fail (x : CString) (w : World) (h : (remove x w).1 ≠ 0) :
    ∃ e : Errno, (remove x w).2 = { w with removeLog := w.removeLog ++ [x], errno := e } := by
  rcases remove_cases x w with h1 | h1
  · exact absurd h1.1 h
  · exact h1.2

theorem unlink_cb_ok (x : CString) (fl : FtwFlag) (w : World) (h : (remove x w).1 = 0) :
    __unlink_cb x fl w = (0, (remove x w).2) := by
  unfold __unlink_cb
  cases hr : remove x w with
  | mk rv w1 =>
    rw [hr] at h
    simp only at h
    subst h
    simp

theorem unlink_cb_fail (x : CString) (fl : FtwFlag) (w : World) (h : (remove x w).1 ≠ 0) :
    __unlink_cb x fl w = ((remove x w).1, oscap_seterr .OSCAP_EFAMILY_GLIBC
      (ofStr "Could not remove " ++ x ++ ofStr ". " ++ strerror (remove x w).2.errno)
      (remove x w).2) := by
  unfold __unlink_cb
  cases hr : remove x w with
  | mk rv w1 =>
    rw [hr] at h
    simp only at h
    simp [h]

theorem unlinkAll_of_removeAll (xs : List CString) (w w1 : World)
    (h : removeAll xs w = some w1) : unlinkAll xs w = (0, w1) := by
  induction xs generalizing w with
  | nil => simp only [removeAll, Option.some.injEq] at h; subst h; rfl
  | cons x xs ih =>
    simp only [removeAll] at h
    by_cases hr : (remove x w).1 = 0
    · simp only [hr, ne_eq, not_true_eq_false, if_false] at h
      simp only [unlinkAll, unlink_cb_ok x .FTW_F w hr, ne_eq, not_true_eq_false, if_false]
      exact ih _ h
    · simp [hr] at h

theorem unlinkAll_stops (pre post : List CString) (e : CString) (w w1 : World)
    (hpre : removeAll pre w = some w1) (hfail : (remove e w1).1 ≠ 0) :
    unlinkAll (pre ++ e :: post) w = ((remove e w1).1, oscap_seterr .OSCAP_EFAMILY_GLIBC
      (ofStr "Could not remove " ++ e ++ ofStr ". " ++ strerror (remove e w1).2.errno)
      (remove e w1).2) := by
  induction pre generalizing w with
  | nil =>
    simp only [removeAll, Option.some.injEq] at hpre
    subst hpre
    simp only [List.nil_append, unlinkAll, unlink_cb_fail e .FTW_F w hfail]
    simp [hfail]
  | cons x xs ih =>
    simp only [removeAll] at hpre
    by_cases hr : (remove x w).1 = 0
    · simp only [hr, ne_eq, not_true_eq_false, if_false] at hpre
      simp only [List.cons_append, unlinkAll, unlink_cb_ok x .FTW_F w hr, ne_eq,
        not_true_eq_false, if_false]
      exact ih _ hpre
    · simp [hr] at hpre

/-- The state after a run of successful removals. -/
theorem removeAll_eq (xs : List CString) (w w1 : World) (h : removeAll xs w = some w1) :
    w1 = { w with removeLog := w.removeLog ++ xs,
                  root := xs.foldl (fun r x => Node.eraseAt (parsePath x) r) w.root } := by
  induction xs generalizing w with
  | nil =>
    simp only [removeAll, Option.some.injEq] at h
    subst h
    simp
  | cons x xs ih =>
    simp only [removeAll] at h
    by_cases hr : (remove x w).1 = 0
    · simp only [hr, ne_eq, not_true_eq_false, if_false] at h
      have := ih _ h
      rw [this, (remove_ok x w hr).2.2.2]
      simp
    · simp [hr] at h

theorem removeAll_append (xs ys : List CString) (w : World) :
    removeAll (xs ++ ys) w = (removeAll xs w).bind (removeAll ys) := by
  induction xs generalizing w with
  | nil => simp [removeAll]
  | cons x xs ih =>
    simp only [List.cons_append, removeAll]
    by_cases hr : (remove x w).1 = 0
    · simp [hr, ih]
    · simp [hr]

/-! ## Lemmas on the visited paths -/

theorem entriesWf_cons (n : Name) (c : Node) (rest : List (Name × Node)) :
    entriesWf ((n, c) :: rest) = true ↔
      validName n = true ∧ n ∉ entryNames rest ∧ Node.wf c = true ∧ entriesWf rest = true := by
  simp [entriesWf, and_assoc]

mutual
theorem ftw_visits_parse (dev0 : Nat) : ∀ (t : Node) (fpath : CString), Node.wf t = true →
    (ftw_visits dev0 fpath t).map (fun v => parsePath v.1) =
      (visitPaths dev0 t).map (fun q => parsePath fpath ++ q)
  | .file d _ _, fpath, _ => by
    by_cases hd : d = dev0 <;> simp [ftw_visits, visitPaths, hd]
  | .symlink d _, fpath, _ => by
    by_cases hd : d = dev0 <;> simp [ftw_visits, visitPaths, hd]
  | .dir d r es, fpath, h => by
    by_cases hd : d = dev0
    · cases r with
      | false => simp [ftw_visits, visitPaths, hd]
      | true =>
        have ih := ftw_visits_dir_parse dev0 es fpath (by simpa [Node.wf] using h)
        simp [ftw_visits, visitPaths, hd, ih]
    · simp [ftw_visits, visitPaths, hd]
theorem ftw_visits_dir_parse (dev0 : Nat) : ∀ (es : List (Name × Node)) (dpath : CString),
    entriesWf es = true →
    (ftw_visits_dir dev0 dpath es).map (fun v => parsePath v.1) =
      (visitPaths_dir dev0 es).map (fun q => parsePath dpath ++ q)
  | [], dpath, _ => by simp [ftw_visits_dir, visitPaths_dir]
  | (n, c) :: rest, dpath, h => by
    rw [entriesWf_cons] at h
    have ih1 := ftw_visits_parse dev0 c (dpath ++ 47 :: n) h.2.2.1
    have ih2 := ftw_visits_dir_parse dev0 rest dpath h.2.2.2
    simp only [ftw_visits_dir, visitPaths_dir, List.map_append, ih1, ih2, List.map_map,
      parsePath_child dpath n h.1]
    congr 1
    apply List.map_congr_left
    intro q _
    simp
end

theorem visitPaths_dir_head (dev0 : Nat) (es : List (Name × Node)) :
    ∀ q ∈ visitPaths_dir dev0 es, ∃ m q', q = m :: q' ∧ m ∈ entryNames es := by
  induction es with
  | nil => intro q hq; simp [visitPaths_dir] at hq
  | cons e rest ih =>
    obtain ⟨n, c⟩ := e
    intro q hq
    simp only [visitPaths_dir, List.mem_append, List.mem_map] at hq
    rcases hq with ⟨q', _, rfl⟩ | hq
    · exact ⟨n, q', rfl, by simp [entryNames]⟩
    · obtain ⟨m, q', hq1, hm⟩ := ih q hq
      exact ⟨m, q', hq1, by simp only [entryNames, List.map_cons, List.mem_cons]; right; exact hm⟩

mutual
theorem visitPaths_lookup (dev0 : Nat) : ∀ (t : Node), Node.wf t = true →
    ∀ q ∈ visitPaths dev0 t, (Node.lookup q t).isSome = true
  | .file d _ _, _ => by
    intro q hq
    by_cases hd : d = dev0 <;> simp [visitPaths, hd] at hq
    subst hq; rfl
  | .symlink d _, _ => by
    intro q hq
    by_cases hd : d = dev0 <;> simp [visitPaths, hd] at hq
    subst hq; rfl
  | .dir d r es, h => by
    intro q hq
    have hes : entriesWf es = true := by simpa [Node.wf] using h
    have ih := visitPaths_dir_lookup dev0 es hes
    have hmem : q ∈ visitPaths_dir dev0 es ∨ q = [] := by
      by_cases hd : d = dev0
      · cases r with
        | false => simp [visitPaths, hd] at hq; exact Or.inr hq
        | true => simpa [visitPaths, hd] using hq
      · simp [visitPaths, hd] at hq
    rcases hmem with hq | hq
    · obtain ⟨m, q', rfl, c, hf, hl⟩ := ih q hq
      rw [lookup_cons_dir, hf]
      exact hl
    · subst hq; rfl
theorem visitPaths_dir_lookup (dev0 : Nat) : ∀ (es : List (Name × Node)),
    entriesWf es = true → ∀ q ∈ visitPaths_dir dev0 es,
      ∃ m q', q = m :: q' ∧ ∃ c, findEntry m es = some c ∧ (Node.lookup q' c).isSome = true
  | [], _ => by intro q hq; simp [visitPaths_dir] at hq
  | (n, c) :: rest, h => by
    rw [entriesWf_cons] at h
    intro q hq
    simp only [visitPaths_dir, List.mem_append, List.mem_map] at hq
    rcases hq with ⟨q', hq', rfl⟩ | hq
    · exact ⟨n, q', rfl, c, by simp [findEntry], visitPaths_lookup dev0 c h.2.2.1 q' hq'⟩
    · obtain ⟨m, q', hq1, c', hf, hl⟩ := visitPaths_dir_lookup dev0 rest h.2.2.2 q hq
      refine ⟨m, q', hq1, c', ?_, hl⟩
      have hm : m ∈ entryNames rest := by
        by_contra hne
        rw [(findEntry_eq_none_iff m rest).mpr hne] at hf
        cases hf
      have hnm : ¬ n = m := fun e => h.2.1 (e ▸ hm)
      simp [findEntry, hnm, hf]
end

mutual
theorem visitPaths_pairwise (dev0 : Nat) : ∀ (t : Node), Node.wf t = true →
    (visitPaths dev0 t).Pairwise (fun x y => ¬ x <+: y)
  | .file d _ _, _ => by
    by_cases hd : d = dev0 <;> simp [visitPaths, hd]
  | .symlink d _, _ => by
    by_cases hd : d = dev0 <;> simp [visitPaths, hd]
  | .dir d r es, h => by
    have hes : entriesWf es = true := by simpa [Node.wf] using h
    have ih := visitPaths_dir_pairwise dev0 es hes
    by_cases hd : d = dev0
    · cases r with
      | false => simp [visitPaths, hd]
      | true =>
        simp only [visitPaths, hd, ne_eq, not_true_eq_false, if_false, Bool.true_eq_false]
        rw [List.pairwise_append]
        refine ⟨ih, List.pairwise_singleton _ _, ?_⟩
        intro x hx y hy
        simp only [List.mem_singleton] at hy
        subst hy
        obtain ⟨m, q', rfl, _⟩ := visitPaths_dir_head dev0 es x hx
        simp
    · simp [visitPaths, hd]
theorem visitPaths_dir_pairwise (dev0 : Nat) : ∀ (es : List (Name × Node)),
    entriesWf es = true → (visitPaths_dir dev0 es).Pairwise (fun x y => ¬ x <+: y)
  | [], _ => by simp [visitPaths_dir]
  | (n, c) :: rest, h => by
    rw [entriesWf_cons] at h
    have ih1 := visitPaths_pairwise dev0 c h.2.2.1
    have ih2 := visitPaths_dir_pairwise dev0 rest h.2.2.2
    simp only [visitPaths_dir]
    rw [List.pairwise_append]
    refine ⟨?_, ih2, ?_⟩
    · rw [List.pairwise_map]
      refine ih1.imp ?_
      intro a b hab hpre
      exact hab ((List.prefix_cons_inj n).mp hpre)
    · intro x hx y hy
      simp only [List.mem_map] at hx
      obtain ⟨a, _, rfl⟩ := hx
      obtain ⟨m, q', rfl, hm⟩ := visitPaths_dir_head dev0 rest y hy
      intro hpre
      have := List.cons_prefix_cons.mp hpre
      exact h.2.1 (this.1 ▸ hm)
end

theorem ftw_visits_last (fpath : CString) (t : Node) :
    ∃ pre fl, ftw_visits t.dev fpath t = pre ++ [(fpath, fl)] := by
  cases t with
  | file d m c => exact ⟨[], .FTW_F, by simp [ftw_visits, Node.dev]⟩
  | symlink d tg => exact ⟨[], .FTW_SL, by simp [ftw_visits, Node.dev]⟩
  | dir d r es =>
    cases r with
    | false => exact ⟨[], .FTW_DNR, by simp [ftw_visits, Node.dev]⟩
    | true => exact ⟨ftw_visits_dir d fpath es, .FTW_DP, by simp [ftw_visits, Node.dev]⟩

theorem visits_last (dirpath : CString) (t : Node) :
    ∃ pre, visits dirpath t = pre ++ [dirpath] := by
  obtain ⟨pre, fl, h⟩ := ftw_visits_last dirpath t
  exact ⟨pre.map (fun v => v.1), by simp [visits, h]⟩

/-- Every visited path name resolves to the start of the walk followed by a
path that exists below it. -/
theorem visits_parse (dirpath : CString) (t : Node) (hwf : Node.wf t = true) :
    ∀ x ∈ visits dirpath t, ∃ q, parsePath x = parsePath dirpath ++ q ∧
      (Node.lookup q t).isSome = true := by
  intro x hx
  have hmem : parsePath x ∈ (ftw_visits t.dev dirpath t).map (fun v => parsePath v.1) := by
    simp only [visits, List.mem_map] at hx ⊢
    obtain ⟨v, hv, rfl⟩ := hx
    exact ⟨v, hv, rfl⟩
  rw [ftw_visits_parse t.dev t dirpath hwf, List.mem_map] at hmem
  obtain ⟨q, hq, hqe⟩ := hmem
  exact ⟨q, hqe.symm, visitPaths_lookup t.dev t hwf q hq⟩

/-- An object is visited before the directories above it. -/
theorem visits_pairwise (dirpath : CString) (t : Node) (hwf : Node.wf t = true) :
    (visits dirpath t).Pairwise (fun x y => ¬ parsePath x <+: parsePath y) := by
  have h1 : ((visits dirpath t).map parsePath).Pairwise (fun x y => ¬ x <+: y) := by
    have : (visits dirpath t).map parsePath =
        (ftw_visits t.dev dirpath t).map (fun v => parsePath v.1) := by
      simp [visits, List.map_map]
    rw [this, ftw_visits_parse t.dev t dirpath hwf, List.pairwise_map]
    refine (visitPaths_pairwise t.dev t hwf).imp ?_
    intro a b hab hpre
    exact hab ((List.prefix_append_right_inj _).mp hpre)
  rwa [List.pairwise_map] at h1

/-! ## Lemmas on runs of removals -/

theorem removeAll_cons_ok (x : CString) (xs : List CString) (w w1 : World)
    (h : removeAll (x :: xs) w = some w1) :
    (remove x w).1 = 0 ∧ removeAll xs (remove x w).2 = some w1 := by
  simp only [removeAll] at h
  by_cases hr : (remove x w).1 = 0
  · simp only [hr, ne_eq, not_true_eq_false, if_false] at h
    exact ⟨hr, h⟩
  · simp [hr] at h

theorem removeAll_keeps_none (xs : List CString) (w w1 : World) (q : Path)
    (h : removeAll xs w = some w1) (hq : Node.lookup q w.root = none) :
    Node.lookup q w1.root = none := by
  induction xs generalizing w with
  | nil => simp only [removeAll, Option.some.injEq] at h; subst h; exact hq
  | cons x xs ih =>
    obtain ⟨hr, hrest⟩ := removeAll_cons_ok x xs w w1 h
    apply ih _ hrest
    rw [(remove_ok x w hr).2.2.2]
    exact lookup_eraseAt_none _ _ _ hq

theorem removeAll_gone (xs : List CString) (w w1 : World) (h : removeAll xs w = some w1) :
    ∀ x ∈ xs, Node.lookup (parsePath x) w1.root = none := by
  induction xs generalizing w with
  | nil => intro x hx; cases hx
  | cons y ys ih =>
    obtain ⟨hr, hrest⟩ := removeAll_cons_ok y ys w w1 h
    intro x hx
    rcases List.mem_cons.mp hx with rfl | hx
    · apply removeAll_keeps_none ys _ w1 _ hrest
      rw [(remove_ok x w hr).2.2.2]
      have := lookup_eraseAt_under (parsePath x) [] (remove_ok x w hr).1 w.root
      simpa using this
    · exact ih _ hrest x hx

theorem removeAll_keeps_some (xs : List CString) (w w1 : World) (q : Path)
    (h : removeAll xs w = some w1) (hq : (Node.lookup q w.root).isSome = true)
    (hx : ∀ x ∈ xs, ¬ parsePath x <+: q) : (Node.lookup q w1.root).isSome = true := by
  induction xs generalizing w with
  | nil => simp only [removeAll, Option.some.injEq] at h; subst h; exact hq
  | cons y ys ih =>
    obtain ⟨hr, hrest⟩ := removeAll_cons_ok y ys w w1 h
    apply ih _ hrest
    · rw [(remove_ok y w hr).2.2.2]
      exact lookup_eraseAt_isSome _ _ _ hq (hx y (List.mem_cons_self _ _))
    · intro x hxm
      exact hx x (List.mem_cons_of_mem _ hxm)

theorem foldl_eraseAt_under (xs : List CString) (p : Path) (hp : p ≠ []) (r : Node)
    (h : ∀ x ∈ xs, p <+: parsePath x) :
    Node.eraseAt p (xs.foldl (fun r x => Node.eraseAt (parsePath x) r) r) = Node.eraseAt p r := by
  induction xs generalizing r with
  | nil => rfl
  | cons y ys ih =>
    rw [List.foldl_cons, ih _ (fun x hx => h x (List.mem_cons_of_mem _ hx))]
    obtain ⟨x', hx'⟩ := h y (List.mem_cons_self _ _)
    rw [← hx']
    exact eraseAt_eraseAt_under p x' hp r

theorem cleanup_dir_eq (w : World) (dir_path : CString) (t : Node) (hne : dir_path ≠ [])
    (hlook : Node.lookup (parsePath dir_path) w.root = some t) :
    oscap_acquire_cleanup_dir (some dir_path) w = (none, (unlinkAll (visits dir_path t) w).2) := by
  unfold oscap_acquire_cleanup_dir
  simp only [nftw_unlink_eq dir_path w t hne hlook]

/-! ## Lemmas on file creation -/

theorem mapEntry_of_fixed (n : Name) (f : Node → Node) (es : List (Name × Node))
    (h : ∀ c, findEntry n es = some c → f c = c) : mapEntry n f es = es := by
  induction es with
  | nil => rfl
  | cons e rest ih =>
    obtain ⟨k, c⟩ := e
    by_cases hk : k = n
    · have := h c (by simp [findEntry, hk])
      simp [mapEntry, hk, this]
    · have ih2 := ih (fun c hc => h c (by simpa [findEntry, hk] using hc))
      simp [mapEntry, hk, ih2]

theorem entryNames_mapEntry (n : Name) (f : Node → Node) (es : List (Name × Node)) :
    entryNames (mapEntry n f es) = entryNames es := by
  induction es with
  | nil => rfl
  | cons e rest ih =>
    obtain ⟨k, c⟩ := e
    by_cases hk : k = n
    · simp [mapEntry, hk, entryNames]
    · simp only [mapEntry, hk, if_false, entryNames, List.map_cons] at ih ⊢
      rw [ih]

theorem mapEntry_append_new (n : Name) (f : Node → Node) (es : List (Name × Node)) (x : Node)
    (h : findEntry n es = none) : mapEntry n f (es ++ [(n, x)]) = es ++ [(n, f x)] := by
  induction es with
  | nil => simp [mapEntry]
  | cons e rest ih =>
    obtain ⟨k, c⟩ := e
    by_cases hk : k = n
    · simp [findEntry, hk] at h
    · have h2 : findEntry n rest = none := by simpa [findEntry, hk] using h
      simp [mapEntry, hk, ih h2]

theorem dropEntry_append_new (n : Name) (es : List (Name × Node)) (x : Node)
    (h : findEntry n es = none) : dropEntry n (es ++ [(n, x)]) = es := by
  have h1 := dropEntry_of_not_mem n es ((findEntry_eq_none_iff n es).mp h)
  unfold dropEntry at h1 ⊢
  rw [List.filter_append, h1]
  simp

theorem insertAt_nil_dir (n : Name) (x : Node) (d : Nat) (rd : Bool) (es : List (Name × Node)) :
    Node.insertAt n x [] (.dir d rd es) = .dir d rd (es ++ [(n, x)]) := by
  simp [Node.insertAt]

theorem insertAt_cons_dir (n : Name) (x : Node) (m : Name) (q : Path) (d : Nat) (rd : Bool)
    (es : List (Name × Node)) :
    Node.insertAt n x (m :: q) (.dir d rd es) =
      .dir d rd (mapEntry m (Node.insertAt n x q) es) := by
  simp [Node.insertAt]

theorem modifyAt_cons_dir (f : Node → Node) (m : Name) (q : Path) (d : Nat) (rd : Bool)
    (es : List (Name × Node)) :
    Node.modifyAt f (m :: q) (.dir d rd es) = .dir d rd (mapEntry m (Node.modifyAt f q) es) := by
  simp [Node.modifyAt]

theorem modifyAt_nil (f : Node → Node) (r : Node) : Node.modifyAt f [] r = f r := by
  cases r <;> rfl

/-- Writing to a file just created gives the file created with the content. -/
theorem modifyAt_insertAt (f : Node → Node) (n : Name) (x : Node) (p : Path) (r : Node)
    (d : Nat) (rd : Bool) (es : List (Name × Node))
    (hl : Node.lookup p r = some (.dir d rd es)) (hn : findEntry n es = none) :
    Node.modifyAt f (p ++ [n]) (Node.insertAt n x p r) = Node.insertAt n (f x) p r := by
  induction p generalizing r with
  | nil =>
    rw [lookup_nil] at hl
    cases hl
    simp only [List.nil_append, insertAt_nil_dir, modifyAt_cons_dir]
    rw [mapEntry_congr n _ f (fun c => modifyAt_nil f c), mapEntry_append_new n f es x hn]
  | cons m p ih =>
    cases r with
    | file d' mo c => simp [Node.lookup] at hl
    | symlink d' tg => simp [Node.lookup] at hl
    | dir d' rd' es' =>
      rw [lookup_cons_dir] at hl
      simp only [List.cons_append, insertAt_cons_dir, modifyAt_cons_dir, mapEntry_mapEntry]
      congr 1
      cases hf : findEntry m es' with
      | none => rw [hf] at hl; cases hl
      | some c =>
        rw [hf] at hl
        have hc := ih c hl
        clear ih hl
        induction es' with
        | nil => rfl
        | cons e rest ih2 =>
          obtain ⟨k, c'⟩ := e
          by_cases hk : k = m
          · have : c' = c := by simpa [findEntry, hk] using hf
            subst this
            simp [mapEntry, hk, hc]
          · have hf2 : findEntry m rest = some c := by simpa [findEntry, hk] using hf
            simp [mapEntry, hk, ih2 hf2]

/-- Removing a file just created gives back the tree. -/
theorem eraseAt_insertAt (n : Name) (x : Node) (p : Path) (r : Node)
    (d : Nat) (rd : Bool) (es : List (Name × Node))
    (hl : Node.lookup p r = some (.dir d rd es)) (hn : findEntry n es = none) :
    Node.eraseAt (p ++ [n]) (Node.insertAt n x p r) = r := by
  induction p generalizing r with
  | nil =>
    rw [lookup_nil] at hl
    cases hl
    simp only [List.nil_append, insertAt_nil_dir, eraseAt_single_dir,
      dropEntry_append_new n es x hn]
  | cons m p ih =>
    cases r with
    | file d' mo c => simp [Node.lookup] at hl
    | symlink d' tg => simp [Node.lookup] at hl
    | dir d' rd' es' =>
      rw [lookup_cons_dir] at hl
      have hcons : m :: p ++ [n] = m :: (p ++ [n]) := rfl
      have hne : p ++ [n] ≠ [] := by simp
      obtain ⟨k, q, hkq⟩ : ∃ k q, p ++ [n] = k :: q := by
        cases hpn : p ++ [n] with
        | nil => exact absurd hpn hne
        | cons k q => exact ⟨k, q, rfl⟩
      rw [hcons, insertAt_cons_dir, hkq, eraseAt_cons_cons_dir, ← hkq, mapEntry_mapEntry]
      congr 1
      apply mapEntry_of_fixed
      intro c hc
      rw [hc] at hl
      exact ih c hl

theorem lookup_insertAt_new (n : Name) (x : Node) (p : Path) (r : Node)
    (d : Nat) (rd : Bool) (es : List (Name × Node))
    (hl : Node.lookup p r = some (.dir d rd es)) (hn : findEntry n es = none) :
    Node.lookup p (Node.insertAt n x p r) = some (.dir d rd (es ++ [(n, x)])) ∧
    Node.lookup (p ++ [n]) (Node.insertAt n x p r) = some x := by
  induction p generalizing r with
  | nil =>
    rw [lookup_nil] at hl
    cases hl
    refine ⟨by simp [insertAt_nil_dir, lookup_nil], ?_⟩
    simp only [List.nil_append, insertAt_nil_dir, lookup_cons_dir]
    have : findEntry n (es ++ [(n, x)]) = some x := by
      induction es with
      | nil => simp [findEntry]
      | cons e rest ih =>
        obtain ⟨k, c⟩ := e
        by_cases hk : k = n
        · simp [findEntry, hk] at hn
        · have h2 : findEntry n rest = none := by simpa [findEntry, hk] using hn
          simp [findEntry, hk, ih h2]
    rw [this]
    exact lookup_nil x
  | cons m p ih =>
    cases r with
    | file d' mo c => simp [Node.lookup] at hl
    | symlink d' tg => simp [Node.lookup] at hl
    | dir d' rd' es' =>
      rw [lookup_cons_dir] at hl
      simp only [List.cons_append, insertAt_cons_dir, lookup_cons_dir, findEntry_mapEntry_same]
      cases hf : findEntry m es' with
      | none => rw [hf] at hl; cases hl
      | some c =>
        rw [hf] at hl
        simpa using ih c hl

theorem eraseAt_modifyAt (f : Node → Node) (p : Path) (hp : p ≠ []) (r : Node) :
    Node.eraseAt p (Node.modifyAt f p r) = Node.eraseAt p r := by
  induction p generalizing r with
  | nil => exact absurd rfl hp
  | cons m p ih =>
    cases r with
    | file d' mo c => cases p <;> simp [Node.modifyAt]
    | symlink d' tg => cases p <;> simp [Node.modifyAt]
    | dir d' rd' es' =>
      rw [modifyAt_cons_dir]
      cases p with
      | nil => rw [eraseAt_single_dir, eraseAt_single_dir, dropEntry_mapEntry]
      | cons k q =>
        rw [eraseAt_cons_cons_dir, eraseAt_cons_cons_dir, mapEntry_mapEntry]
        congr 1
        apply mapEntry_congr
        intro c
        exact ih (by simp) c

/-! ## Lemmas on `mkstemp` -/

/-- What `open` with `O_CREAT | O_EXCL` does, by cases on the file system. -/
theorem open_excl_cases (path : CString) (mode : Nat) (w : World) :
    ((open_excl path mode w).1 = -1 ∧
      ∃ e : Errno, (open_excl path mode w).2 = { w with errno := e }) ∨
    (∃ n d rd es, (parsePath path).getLast? = some n ∧
      Node.lookup (parsePath path).dropLast w.root = some (.dir d rd es) ∧
      findEntry n es = none ∧
      open_excl path mode w = ((w.next_fd : Int),
        { w with root := Node.insertAt n
                   (.file d (mode &&& (0o7777 ^^^ (w.umask &&& 0o7777))) [])
                   (parsePath path).dropLast w.root,
                 next_fd := w.next_fd + 1,
                 open_fds := (w.next_fd, path) :: w.open_fds })) := by
  cases hg : (parsePath path).getLast? with
  | none => left; simp [open_excl, hg]
  | some n =>
    cases hl : Node.lookup (parsePath path).dropLast w.root with
    | none => left; simp [open_excl, hg, hl]
    | some t =>
      cases t with
      | file d m c => left; simp [open_excl, hg, hl]
      | symlink d tg => left; simp [open_excl, hg, hl]
      | dir d rd es =>
        cases hf : findEntry n es with
        | some c => left; simp [open_excl, hg, hl, hf]
        | none =>
          cases hd : w.denyCreate (parsePath path) with
          | true => left; simp [open_excl, hg, hl, hf, hd]
          | false =>
            right
            exact ⟨n, d, rd, es, rfl, rfl, hf, by simp [open_excl, hg, hl, hf, hd]⟩

theorem open_excl_fd (path : CString) (mode : Nat) (w : World) :
    (open_excl path mode w).1 = -1 ∨ (open_excl path mode w).1 = (w.next_fd : Int) := by
  rcases open_excl_cases path mode w with h | ⟨n, d, rd, es, _, _, _, h⟩
  · exact Or.inl h.1
  · right; rw [h]

/-- What the attempts of `mkstemp` do: they fail and change `errno` only, or
one of the names is created. -/
theorem mkstemp_try_cases (stem : CString) (randoms : List Nat) (w : World) :
    ((mkstemp_try stem randoms w).1 = -1 ∧
      ∃ e : Errno, (mkstemp_try stem randoms w).2.2 = { w with errno := e }) ∨
    (∃ v, (open_excl (stem ++ gen_suffix v) 0o600 w).1 = (w.next_fd : Int) ∧
      mkstemp_try stem randoms w =
        ((w.next_fd : Int), stem ++ gen_suffix v,
          (open_excl (stem ++ gen_suffix v) 0o600 w).2)) := by
  induction randoms with
  | nil => left; exact ⟨rfl, .EEXIST, rfl⟩
  | cons v vs ih =>
    rcases open_excl_fd (stem ++ gen_suffix v) 0o600 w with hfd | hfd
    · rcases open_excl_cases (stem ++ gen_suffix v) 0o600 w with h | ⟨n, d, rd, es, _, _, _, h⟩
      · obtain ⟨_, e, he⟩ := h
        by_cases hee : e = .EEXIST
        · have : mkstemp_try stem (v :: vs) w = mkstemp_try stem vs w := by
            simp only [mkstemp_try]
            cases hop : open_excl (stem ++ gen_suffix v) 0o600 w with
            | mk fd w1 =>
              rw [hop] at hfd he
              simp only at hfd he
              simp [hfd, he, hee]
          rw [this]
          exact ih
        · left
          have : mkstemp_try stem (v :: vs) w =
              (-1, stem ++ ofStr "XXXXXX", (open_excl (stem ++ gen_suffix v) 0o600 w).2) := by
            simp only [mkstemp_try]
            cases hop : open_excl (stem ++ gen_suffix v) 0o600 w with
            | mk fd w1 =>
              rw [hop] at hfd he
              simp only at hfd he
              simp [hfd, he, hee]
          rw [this]
          exact ⟨rfl, e, he⟩
      · rw [h] at hfd
        simp only at hfd
        omega
    · right
      refine ⟨v, hfd, ?_⟩
      simp only [mkstemp_try]
      cases hop : open_excl (stem ++ gen_suffix v) 0o600 w with
      | mk fd w1 =>
        rw [hop] at hfd
        simp only at hfd
        have : fd ≠ -1 := by omega
        simp [this, hfd]

theorem mkstemp_cases (randoms : List Nat) (template : CString) (w : World) :
    ((mkstemp randoms template w).1 = -1 ∧
      ∃ e : Errno, (mkstemp randoms template w).2.2 = { w with errno := e }) ∨
    (∃ v, 6 ≤ template.length ∧ template.drop (template.length - 6) = ofStr "XXXXXX" ∧
      (open_excl (template.take (template.length - 6) ++ gen_suffix v) 0o600 w).1
        = (w.next_fd : Int) ∧
      mkstemp randoms template w =
        ((w.next_fd : Int), template.take (template.length - 6) ++ gen_suffix v,
          (open_excl (template.take (template.length - 6) ++ gen_suffix v) 0o600 w).2)) := by
  by_cases hbad : template.length < 6 ∨ template.drop (template.length - 6) ≠ ofStr "XXXXXX"
  · left
    have : mkstemp randoms template w = (-1, template, { w with errno := .EINVAL }) := by
      simp only [mkstemp, hbad, if_true]
    rw [this]
    exact ⟨rfl, .EINVAL, rfl⟩
  · have hgood : 6 ≤ template.length ∧ template.drop (template.length - 6) = ofStr "XXXXXX" := by
      constructor
      · by_contra h; exact hbad (Or.inl (by omega))
      · by_contra h; exact hbad (Or.inr h)
    have : mkstemp randoms template w =
        mkstemp_try (template.take (template.length - 6)) randoms w := by
      simp only [mkstemp, hbad, if_false]
    rw [this]
    rcases mkstemp_try_cases (template.take (template.length - 6)) randoms w with h | ⟨v, h1, h2⟩
    · exact Or.inl h
    · exact Or.inr ⟨v, hgood.1, hgood.2, h1, h2⟩

/-! ## Lemmas on `oscap_acquire_url_download` -/

/-- `remove` on a file that was just created in a directory. -/
theorem remove_created (path : CString) (wx : World) (r : Node) (p : Path) (n : Name)
    (d : Nat) (rd : Bool) (es : List (Name × Node)) (fd fm : Nat) (fc : List Byte)
    (hpath : parsePath path = p ++ [n])
    (hl : Node.lookup p r = some (.dir d rd es)) (hn : findEntry n es = none)
    (hroot : wx.root = Node.insertAt n (.file fd fm fc) p r) :
    (wx.denyRemove (p ++ [n]) = false →
      (remove path wx).1 = 0 ∧ (remove path wx).2.root = r ∧
        (remove path wx).2.last_error = wx.last_error) ∧
    (wx.denyRemove (p ++ [n]) = true →
      (remove path wx).1 = -1 ∧ (remove path wx).2.root = wx.root ∧
        (remove path wx).2.errno = .EACCES ∧
        (remove path wx).2.last_error = wx.last_error) := by
  have hlook : Node.lookup (parsePath path) wx.root = some (.file fd fm fc) := by
    rw [hpath, hroot]
    exact (lookup_insertAt_new n _ p r d rd es hl hn).2
  have hp : parsePath path ≠ [] := by rw [hpath]; simp
  constructor
  · intro hd
    rw [← hpath] at hd
    have h1 : (remove path wx).1 = 0 := by simp [remove, hlook, hp, hd]
    have h2 := (remove_ok path wx h1).2.2.2
    rw [h2]
    refine ⟨h1, ?_, rfl⟩
    show Node.eraseAt (parsePath path) wx.root = r
    rw [hpath, hroot]
    exact eraseAt_insertAt n _ p r d rd es hl hn
  · intro hd
    rw [← hpath] at hd
    refine ⟨?_, ?_, ?_, ?_⟩ <;> simp [remove, hlook, hp, hd]

theorem remove_created_root_ok (path : CString) (wx : World) (r : Node) (p : Path) (n : Name)
    (d : Nat) (rd : Bool) (es : List (Name × Node)) (fd fm : Nat) (fc : List Byte)
    (hpath : parsePath path = p ++ [n])
    (hl : Node.lookup p r = some (.dir d rd es)) (hn : findEntry n es = none)
    (hroot : wx.root = Node.insertAt n (.file fd fm fc) p r)
    (hd : wx.denyRemove (p ++ [n]) = false) : (remove path wx).2.root = r :=
  ((remove_created path wx r p n d rd es fd fm fc hpath hl hn hroot).1 hd).2.1

theorem remove_created_root_denied (path : CString) (wx : World) (r : Node) (p : Path)
    (n : Name) (d : Nat) (rd : Bool) (es : List (Name × Node)) (fd fm : Nat) (fc : List Byte)
    (hpath : parsePath path = p ++ [n])
    (hl : Node.lookup p r = some (.dir d rd es)) (hn : findEntry n es = none)
    (hroot : wx.root = Node.insertAt n (.file fd fm fc) p r)
    (hd : wx.denyRemove (p ++ [n]) = true) :
    (remove path wx).2.root = Node.insertAt n (.file fd fm fc) p r :=
  ((remove_created path wx r p n d rd es fd fm fc hpath hl hn hroot).2 hd).2.1.trans hroot

theorem fdopen_of_ok (env : Env) (fd : Int) (w : World) (h : env.fdopen_ok = true) :
    fdopen env fd w = (some fd, w) := by
  simp [fdopen, h]

theorem fdopen_of_fail (env : Env) (fd : Int) (w : World) (h : env.fdopen_ok = false) :
    fdopen env fd w = (none, { w with errno := .ENOMEM }) := by
  simp [fdopen, h]

theorem curl_easy_init_of_ok (env : Env) (w : World) (h : env.curl_init_ok = true) :
    curl_easy_init env w = (some w.curl_next,
      { w with curl_next := w.curl_next + 1, curl_live := w.curl_live ++ [w.curl_next] }) := by
  simp [curl_easy_init, h]

theorem curl_easy_init_of_fail (env : Env) (w : World) (h : env.curl_init_ok = false) :
    curl_easy_init env w = (none, w) := by
  simp [curl_easy_init, h]

theorem fwrite_root_congr (data : List Byte) (fd : Int) (w w' : World)
    (h1 : w.open_fds = w'.open_fds) (h2 : w.root = w'.root) :
    (fwrite data fd w).root = (fwrite data fd w').root := by
  unfold fwrite
  rw [h1]
  split
  · exact h2
  · simp only [h2]

theorem close_root (fd : Int) (w : World) : (close fd w).root = w.root := rfl

theorem curl_easy_cleanup_root (h : Nat) (w : World) : (curl_easy_cleanup h w).root = w.root :=
  rfl

theorem oscap_seterr_root (f : oscap_errfamily_t) (m : CString) (w : World) :
    (oscap_seterr f m w).root = w.root := rfl

/-- The call when `mkstemp` fails. -/
theorem url_download_of_mkstemp_fail (env : Env) (temp_dir url : CString) (w : World)
    (name : CString) (w1 : World)
    (hm : mkstemp env.randoms (snprintf env.PATH_MAX (temp_dir ++ ofStr "/" ++ TEMP_URL_TEMPLATE))
      { w with umask := 0o77 } = (-1, name, w1)) :
    oscap_acquire_url_download env temp_dir url w =
      (none, oscap_seterr .OSCAP_EFAMILY_GLIBC (ofStr "mkstemp failed, " ++ strerror w1.errno)
        { w1 with umask := w.umask }) := by
  unfold oscap_acquire_url_download
  simp only [umask, hm]
  simp

/-- The call when the file is created and `fdopen` fails. -/
theorem url_download_of_fdopen_fail (env : Env) (temp_dir url : CString) (w : World)
    (fd : Int) (name : CString) (w1 : World)
    (hm : mkstemp env.randoms (snprintf env.PATH_MAX (temp_dir ++ ofStr "/" ++ TEMP_URL_TEMPLATE))
      { w with umask := 0o77 } = (fd, name, w1))
    (hfd : fd ≠ -1) (hfdopen : env.fdopen_ok = false) :
    (oscap_acquire_url_download env temp_dir url w).1 = none ∧
    (oscap_acquire_url_download env temp_dir url w).2.root =
      (remove name (oscap_seterr .OSCAP_EFAMILY_GLIBC (ofStr "fdopen failed, " ++
        strerror Errno.ENOMEM) { w1 with umask := w.umask, errno := .ENOMEM })).2.root := by
  unfold oscap_acquire_url_download
  simp only [umask, hm]
  simp only [hfd, if_false, fdopen_of_fail env _ _ hfdopen]
  constructor
  · trivial
  · simp only [close_root]
    split <;> rfl

/-- The call when the file and the stream are there and `curl_easy_init` fails. -/
theorem url_download_of_init_fail (env : Env) (temp_dir url : CString) (w : World)
    (fd : Int) (name : CString) (w1 : World)
    (hm : mkstemp env.randoms (snprintf env.PATH_MAX (temp_dir ++ ofStr "/" ++ TEMP_URL_TEMPLATE))
      { w with umask := 0o77 } = (fd, name, w1))
    (hfd : fd ≠ -1) (hfdopen : env.fdopen_ok = true) (hinit : env.curl_init_ok = false) :
    (oscap_acquire_url_download env temp_dir url w).1 = none ∧
    (oscap_acquire_url_download env temp_dir url w).2.root =
      (remove name (oscap_seterr .OSCAP_EFAMILY_NET (ofStr "Failed to initialize libcurl.")
        { w1 with umask := w.umask })).2.root := by
  unfold oscap_acquire_url_download
  simp only [umask, hm]
  simp only [hfd, if_false, fdopen_of_ok env _ _ hfdopen, curl_easy_init_of_fail env _ hinit]
  constructor
  · trivial
  · simp only [close_root]
    split <;> rfl

/-- The call when the transfer is attempted. -/
theorem url_download_of_perform (env : Env) (temp_dir url : CString) (w : World)
    (fd : Int) (name : CString) (w1 : World)
    (hm : mkstemp env.randoms (snprintf env.PATH_MAX (temp_dir ++ ofStr "/" ++ TEMP_URL_TEMPLATE))
      { w with umask := 0o77 } = (fd, name, w1))
    (hfd : fd ≠ -1) (hfdopen : env.fdopen_ok = true) (hinit : env.curl_init_ok = true) :
    ((env.perform url).code = 0 →
      (oscap_acquire_url_download env temp_dir url w).1 = some name ∧
      (oscap_acquire_url_download env temp_dir url w).2.root =
        (fwrite (env.perform url).body fd w1).root) ∧
    ((env.perform url).code ≠ 0 →
      (oscap_acquire_url_download env temp_dir url w).1 = none ∧
      (oscap_acquire_url_download env temp_dir url w).2.root =
        (remove name (oscap_seterr .OSCAP_EFAMILY_NET
          (ofStr "Download failed: " ++ env.curl_easy_strerror (env.perform url).code)
          (fwrite (env.perform url).body fd
            { w1 with umask := w.umask, curl_next := w1.curl_next + 1,
                      curl_live := w1.curl_live ++ [w1.curl_next] }))).2.root) := by
  unfold oscap_acquire_url_download
  simp only [umask, hm]
  simp only [hfd, if_false, fdopen_of_ok env _ _ hfdopen, curl_easy_init_of_ok env _ hinit,
    curl_easy_perform]
  constructor
  · intro hc
    simp only [hc, ne_eq, not_true_eq_false, if_false]
    refine ⟨trivial, ?_⟩
    simp only [close_root, curl_easy_cleanup_root]
    exact fwrite_root_congr _ _ _ _ rfl rfl
  · intro hc
    simp only [hc, ne_eq, not_false_eq_true, if_true]
    refine ⟨trivial, ?_⟩
    simp only [close_root, curl_easy_cleanup_root]
    split <;> rfl

/-- A successful `mkstemp`: the name it made, the directory it made it in and
the state it leaves. -/
theorem mkstemp_created (randoms : List Nat) (template : CString) (w0 : World)
    (h : (mkstemp randoms template w0).1 ≠ -1) :
    ∃ v n d rd es,
      6 ≤ template.length ∧ template.drop (template.length - 6) = ofStr "XXXXXX" ∧
      (parsePath (template.take (template.length - 6) ++ gen_suffix v)).getLast? = some n ∧
      Node.lookup (parsePath (template.take (template.length - 6) ++ gen_suffix v)).dropLast
        w0.root = some (.dir d rd es) ∧
      findEntry n es = none ∧
      mkstemp randoms template w0 =
        ((w0.next_fd : Int), template.take (template.length - 6) ++ gen_suffix v,
          { w0 with
            root := Node.insertAt n (.file d (0o600 &&& (0o7777 ^^^ (w0.umask &&& 0o7777))) [])
              (parsePath (template.take (template.length - 6) ++ gen_suffix v)).dropLast w0.root,
            next_fd := w0.next_fd + 1,
            open_fds :=
              (w0.next_fd, template.take (template.length - 6) ++ gen_suffix v) ::
                w0.open_fds }) := by
  rcases mkstemp_cases randoms template w0 with hc | ⟨v, h6, hx, hfd, hc⟩
  · exact absurd hc.1 h
  · rcases open_excl_cases (template.take (template.length - 6) ++ gen_suffix v) 0o600 w0 with
      ho | ⟨n, d, rd, es, hg, hl, hf, ho⟩
    · rw [ho.1] at hfd
      omega
    · refine ⟨v, n, d, rd, es, h6, hx, hg, hl, hf, ?_⟩
      rw [hc, ho]

theorem fwrite_head (data : List Byte) (fd : Nat) (path : CString) (w : World)
    (rest : List (Nat × CString)) (h : w.open_fds = (fd, path) :: rest) :
    (fwrite data (fd : Int) w).root =
      Node.modifyAt (Node.append data) (parsePath path) w.root := by
  unfold fwrite
  rw [h]
  simp

theorem path_split (p : Path) (n : Name) (h : p.getLast? = some n) : p = p.dropLast ++ [n] := by
  exact (List.dropLast_append_getLast? n (Option.mem_def.mpr h)).symm

theorem letters_getD_ne_slash : ∀ k : Fin 62, letters.getD k.val 97 ≠ 47 := by decide

theorem gen_suffix_no_slash (v : Nat) : (47 : Byte) ∉ gen_suffix v := by
  unfold gen_suffix
  intro hmem
  rw [List.mem_map] at hmem
  obtain ⟨i, _, hi⟩ := hmem
  have hlt : (v / 62 ^ i) % 62 < 62 := Nat.mod_lt _ (by decide)
  exact letters_getD_ne_slash ⟨_, hlt⟩ hi

theorem gen_suffix_length (v : Nat) : (gen_suffix v).length = 6 := by
  simp [gen_suffix]

theorem download_name_valid (v : Nat) :
    validName (ofStr "downloaded." ++ gen_suffix v) = true := by
  unfold validName
  simp only [Bool.and_eq_true, decide_eq_true_eq]
  constructor
  · intro h
    have := congrArg List.length h
    simp [gen_suffix_length] at this
  · intro h
    rw [List.mem_append] at h
    rcases h with h | h
    · revert h; decide
    · exact gen_suffix_no_slash v h

/-- When the formatted name fits, the template is not truncated and the name
`mkstemp` makes from it is an entry of the directory. -/
theorem template_fits (PATH_MAX : Nat) (temp_dir : CString) (v : Nat)
    (hfit : temp_dir.length + 18 < PATH_MAX) :
    (snprintf PATH_MAX (temp_dir ++ ofStr "/" ++ TEMP_URL_TEMPLATE)).take
        ((snprintf PATH_MAX (temp_dir ++ ofStr "/" ++ TEMP_URL_TEMPLATE)).length - 6)
        ++ gen_suffix v
      = temp_dir ++ ofStr "/" ++ (ofStr "downloaded." ++ gen_suffix v) ∧
    parsePath (temp_dir ++ ofStr "/" ++ (ofStr "downloaded." ++ gen_suffix v)) =
      parsePath temp_dir ++ [ofStr "downloaded." ++ gen_suffix v] := by
  have hlen : (temp_dir ++ ofStr "/" ++ TEMP_URL_TEMPLATE).length = temp_dir.length + 18 := by
    have h1 : (ofStr "/").length = 1 := by decide
    have h2 : TEMP_URL_TEMPLATE.length = 17 := by decide
    simp only [List.length_append, h1, h2]
  have hs : snprintf PATH_MAX (temp_dir ++ ofStr "/" ++ TEMP_URL_TEMPLATE) =
      temp_dir ++ ofStr "/" ++ TEMP_URL_TEMPLATE := by
    unfold snprintf
    apply List.take_of_length_le
    rw [hlen]
    omega
  have ht : TEMP_URL_TEMPLATE = ofStr "downloaded." ++ ofStr "XXXXXX" := by decide
  constructor
  · rw [hs, hlen]
    have h12 : (temp_dir ++ ofStr "/" ++ ofStr "downloaded.").length = temp_dir.length + 18 - 6 := by
      have h1 : (ofStr "/").length = 1 := by decide
      have h2 : (ofStr "downloaded.").length = 11 := by decide
      simp only [List.length_append, h1, h2]
      omega
    rw [ht, ← List.append_assoc, ← h12, List.take_left']
    · simp only [List.append_assoc]
    · rfl
  · have h1 : ofStr "/" = [47] := by decide
    rw [h1, List.append_assoc]
    exact parsePath_child temp_dir _ (download_name_valid v)

theorem fwrite_denyRemove (data : List Byte) (fd : Int) (w : World) :
    (fwrite data fd w).denyRemove = w.denyRemove := by
  unfold fwrite
  split <;> rfl

/-- The tree after a transfer into a file that `mkstemp` just created. -/
theorem root_after_write (w1 : World) (r : Node) (path : CString) (p : Path) (n : Name)
    (fd : Nat) (d : Nat) (rd : Bool) (es : List (Name × Node)) (mode : Nat) (data : List Byte)
    (rest : List (Nat × CString))
    (hpath : parsePath path = p ++ [n])
    (hl : Node.lookup p r = some (.dir d rd es))
    (hf : findEntry n es = none)
    (hroot : w1.root = Node.insertAt n (.file d mode []) p r)
    (hfds : w1.open_fds = (fd, path) :: rest) :
    (fwrite data (fd : Int) w1).root = Node.insertAt n (.file d mode data) p r := by
  rw [fwrite_head data fd path w1 rest hfds, hroot, hpath,
    modifyAt_insertAt _ n _ _ r d rd es hl hf]
  simp [Node.append]

/-- The call once `mkstemp` has created the file: the name and place of the
file, and the result and final tree on each path of the function. -/
theorem url_download_created (env : Env) (temp_dir url : CString) (w : World)
    (hcreate : (mkstemp env.randoms
      (snprintf env.PATH_MAX (temp_dir ++ ofStr "/" ++ TEMP_URL_TEMPLATE))
      { w with umask := 0o77 }).1 ≠ -1) :
    ∃ v p n d rd es,
      parsePath ((snprintf env.PATH_MAX (temp_dir ++ ofStr "/" ++ TEMP_URL_TEMPLATE)).take
        ((snprintf env.PATH_MAX (temp_dir ++ ofStr "/" ++ TEMP_URL_TEMPLATE)).length - 6) ++
          gen_suffix v) = p ++ [n] ∧
      Node.lookup p w.root = some (.dir d rd es) ∧ findEntry n es = none ∧
      (env.fdopen_ok = true → env.curl_init_ok = true → (env.perform url).code = 0 →
        (oscap_acquire_url_download env temp_dir url w).1 =
          some ((snprintf env.PATH_MAX (temp_dir ++ ofStr "/" ++ TEMP_URL_TEMPLATE)).take
            ((snprintf env.PATH_MAX (temp_dir ++ ofStr "/" ++ TEMP_URL_TEMPLATE)).length - 6) ++
              gen_suffix v) ∧
        (oscap_acquire_url_download env temp_dir url w).2.root =
          Node.insertAt n (.file d (0o600 &&& (0o7777 ^^^ (0o77 &&& 0o7777)))
            (env.perform url).body) p w.root) ∧
      (¬ (env.fdopen_ok = true ∧ env.curl_init_ok = true ∧ (env.perform url).code = 0) →
        (oscap_acquire_url_download env temp_dir url w).1 = none ∧
        (w.denyRemove (p ++ [n]) = false →
          (oscap_acquire_url_download env temp_dir url w).2.root = w.root) ∧
        (w.denyRemove (p ++ [n]) = true →
          ∃ c, (oscap_acquire_url_download env temp_dir url w).2.root =
            Node.insertAt n (.file d (0o600 &&& (0o7777 ^^^ (0o77 &&& 0o7777))) c) p w.root)) := by
  obtain ⟨v, n, d, rd, es, _, _, hg, hl, hf, hm⟩ := mkstemp_created _ _ _ hcreate
  have hfd : ((w.next_fd : Nat) : Int) ≠ -1 := by omega
  refine ⟨v, _, n, d, rd, es, path_split _ n hg, hl, hf, ?_, ?_⟩
  · generalize (snprintf env.PATH_MAX (temp_dir ++ ofStr "/" ++ TEMP_URL_TEMPLATE)).take
      ((snprintf env.PATH_MAX (temp_dir ++ ofStr "/" ++ TEMP_URL_TEMPLATE)).length - 6) ++
        gen_suffix v = path at hg hl hm ⊢
    have hp := path_split _ n hg
    generalize (parsePath path).dropLast = p at hp hl hm ⊢
    have hl2 : Node.lookup p w.root = some (.dir d rd es) := hl
    intro hfdopen hinit hc
    obtain ⟨hok, _⟩ := url_download_of_perform env temp_dir url w _ _ _ hm hfd hfdopen hinit
    refine ⟨(hok hc).1, ?_⟩
    rw [(hok hc).2]
    exact root_after_write _ w.root path p n w.next_fd d rd es _ _ w.open_fds hp hl2 hf rfl rfl
  · generalize (snprintf env.PATH_MAX (temp_dir ++ ofStr "/" ++ TEMP_URL_TEMPLATE)).take
      ((snprintf env.PATH_MAX (temp_dir ++ ofStr "/" ++ TEMP_URL_TEMPLATE)).length - 6) ++
        gen_suffix v = path at hg hl hm ⊢
    have hp := path_split _ n hg
    generalize (parsePath path).dropLast = p at hp hl hm ⊢
    have hl2 : Node.lookup p w.root = some (.dir d rd es) := hl
    intro hnot
    cases hfdopen : env.fdopen_ok with
    | false =>
      obtain ⟨h1, h2⟩ := url_download_of_fdopen_fail env temp_dir url w _ _ _ hm hfd hfdopen
      refine ⟨h1, ?_, ?_⟩
      · intro hd
        rw [h2]
        exact remove_created_root_ok path _ w.root p n d rd es d _ [] hp hl2 hf rfl hd
      · intro hd
        refine ⟨[], ?_⟩
        rw [h2]
        exact remove_created_root_denied path _ w.root p n d rd es d _ [] hp hl2 hf rfl hd
    | true =>
      cases hinit : env.curl_init_ok with
      | false =>
        obtain ⟨h1, h2⟩ :=
          url_download_of_init_fail env temp_dir url w _ _ _ hm hfd hfdopen hinit
        refine ⟨h1, ?_, ?_⟩
        · intro hd
          rw [h2]
          exact remove_created_root_ok path _ w.root p n d rd es d _ [] hp hl2 hf rfl hd
        · intro hd
          refine ⟨[], ?_⟩
          rw [h2]
          exact remove_created_root_denied path _ w.root p n d rd es d _ [] hp hl2 hf rfl hd
      | true =>
        have hc : (env.perform url).code ≠ 0 := fun hc => hnot ⟨hfdopen, hinit, hc⟩
        obtain ⟨_, hfail⟩ := url_download_of_perform env temp_dir url w _ _ _ hm hfd hfdopen hinit
        obtain ⟨h1, h2⟩ := hfail hc
        refine ⟨h1, ?_, ?_⟩
        · intro hd
          rw [h2]
          refine remove_created_root_ok path _ w.root p n d rd es d
            (0o600 &&& (0o7777 ^^^ (0o77 &&& 0o7777))) (env.perform url).body hp hl2 hf ?_ ?_
          · exact root_after_write _ w.root path p n w.next_fd d rd es _ _ w.open_fds hp hl2 hf
              rfl rfl
          · show (fwrite _ _ _).denyRemove (p ++ [n]) = false
            rw [fwrite_denyRemove]
            exact hd
        · intro hd
          refine ⟨(env.perform url).body, ?_⟩
          rw [h2]
          refine remove_created_root_denied path _ w.root p n d rd es d
            (0o600 &&& (0o7777 ^^^ (0o77 &&& 0o7777))) (env.perform url).body hp hl2 hf ?_ ?_
          · exact root_after_write _ w.root path p n w.next_fd d rd es _ _ w.open_fds hp hl2 hf
              rfl rfl
          · show (fwrite _ _ _).denyRemove (p ++ [n]) = true
            rw [fwrite_denyRemove]
            exact hd

/-! ## Trees in which every removal succeeds -/

theorem modifyAt_of_fixed (f : Node → Node) (p : Path) (r t : Node)
    (hl : Node.lookup p r = some t) (hf : f t = t) : Node.modifyAt f p r = r := by
  induction p generalizing r with
  | nil =>
    rw [lookup_nil] at hl
    cases hl
    rw [modifyAt_nil, hf]
  | cons m p ih =>
    cases r with
    | file d mo c => simp [Node.lookup] at hl
    | symlink d tg => simp [Node.lookup] at hl
    | dir d rd es =>
      rw [lookup_cons_dir] at hl
      rw [modifyAt_cons_dir]
      congr 1
      apply mapEntry_of_fixed
      intro c hc
      rw [hc] at hl
      exact ih c hl

theorem lookup_modifyAt_self (f : Node → Node) (p : Path) (r t : Node)
    (hl : Node.lookup p r = some t) : Node.lookup p (Node.modifyAt f p r) = some (f t) := by
  induction p generalizing r with
  | nil =>
    rw [lookup_nil] at hl
    cases hl
    rw [modifyAt_nil, lookup_nil]
  | cons m p ih =>
    cases r with
    | file d mo c => simp [Node.lookup] at hl
    | symlink d tg => simp [Node.lookup] at hl
    | dir d rd es =>
      rw [lookup_cons_dir] at hl
      rw [modifyAt_cons_dir, lookup_cons_dir, findEntry_mapEntry_same]
      cases hf : findEntry m es with
      | none => rw [hf] at hl; cases hl
      | some c =>
        rw [hf] at hl
        exact ih c hl

theorem lookup_eraseAt_child (p : Path) (n : Name) (r : Node) (d : Nat) (rd : Bool)
    (es : List (Name × Node)) (hl : Node.lookup p r = some (.dir d rd es)) :
    Node.lookup p (Node.eraseAt (p ++ [n]) r) = some (.dir d rd (dropEntry n es)) := by
  induction p generalizing r with
  | nil =>
    rw [lookup_nil] at hl
    cases hl
    rw [List.nil_append, eraseAt_single_dir, lookup_nil]
  | cons m p ih =>
    cases r with
    | file d' mo c => simp [Node.lookup] at hl
    | symlink d' tg => simp [Node.lookup] at hl
    | dir d' rd' es' =>
      rw [lookup_cons_dir] at hl
      obtain ⟨k, q, hkq⟩ : ∃ k q, p ++ [n] = k :: q := by
        cases hpn : p ++ [n] with
        | nil => simp at hpn
        | cons k q => exact ⟨k, q, rfl⟩
      rw [List.cons_append, hkq, eraseAt_cons_cons_dir, ← hkq, lookup_cons_dir,
        findEntry_mapEntry_same]
      cases hf : findEntry m es' with
      | none => rw [hf] at hl; cases hl
      | some c =>
        rw [hf] at hl
        exact ih c hl

theorem modifyAt_const_eraseAt_child (x : Node) (p : Path) (n : Name) (r : Node) :
    Node.modifyAt (fun _ => x) p (Node.eraseAt (p ++ [n]) r) =
      Node.modifyAt (fun _ => x) p r := by
  induction p generalizing r with
  | nil => rw [modifyAt_nil, modifyAt_nil]
  | cons m p ih =>
    cases r with
    | file d' mo c =>
      rw [eraseAt_of_not_dir _ _ (by intro d rd es h; cases h)]
    | symlink d' tg =>
      rw [eraseAt_of_not_dir _ _ (by intro d rd es h; cases h)]
    | dir d' rd' es' =>
      obtain ⟨k, q, hkq⟩ : ∃ k q, p ++ [n] = k :: q := by
        cases hpn : p ++ [n] with
        | nil => simp at hpn
        | cons k q => exact ⟨k, q, rfl⟩
      rw [List.cons_append, hkq, eraseAt_cons_cons_dir, ← hkq, modifyAt_cons_dir,
        modifyAt_cons_dir, mapEntry_mapEntry]
      congr 1
      apply mapEntry_congr
      intro c
      exact ih c

theorem entriesPlain_cons (dev0 : Nat) (n : Name) (c : Node) (rest : List (Name × Node)) :
    entriesPlain dev0 ((n, c) :: rest) = true ↔
      Node.plain dev0 c = true ∧ entriesPlain dev0 rest = true := by
  simp [entriesPlain]

theorem removeAll_single (x : CString) (w : World) (t : Node)
    (hl : Node.lookup (parsePath x) w.root = some t) (hp : parsePath x ≠ [])
    (hd : w.denyRemove (parsePath x) = false)
    (ht : ∀ d rd e es, t ≠ .dir d rd (e :: es)) :
    removeAll [x] w = some { w with removeLog := w.removeLog ++ [x],
                                    root := Node.eraseAt (parsePath x) w.root } := by
  have h1 : (remove x w).1 = 0 := by
    rcases remove_cases x w with h | h
    · exact h.1
    · exfalso
      have : (remove x w).1 = 0 := by
        cases t with
        | file d m c => simp [remove, hl, hp, hd]
        | symlink d tg => simp [remove, hl, hp, hd]
        | dir d rd es =>
          cases es with
          | nil => simp [remove, hl, hp, hd]
          | cons e rest => exact absurd rfl (ht d rd e rest)
      rw [h.1] at this
      cases this
  simp only [removeAll, h1, ne_eq, not_true_eq_false, if_false]
  rw [(remove_ok x w h1).2.2.2]

mutual
theorem removeAll_ftw_visits (dev0 : Nat) : ∀ (c : Node) (fpath : CString) (w : World),
    Node.lookup (parsePath fpath) w.root = some c → Node.wf c = true →
    Node.plain dev0 c = true → parsePath fpath ≠ [] →
    (∀ x ∈ (ftw_visits dev0 fpath c).map (fun v => v.1), w.denyRemove (parsePath x) = false) →
    removeAll ((ftw_visits dev0 fpath c).map (fun v => v.1)) w =
      some { w with removeLog := w.removeLog ++ (ftw_visits dev0 fpath c).map (fun v => v.1),
                    root := Node.eraseAt (parsePath fpath) w.root }
  | .file d m ct, fpath, w, hl, _, hpl, hp, hd => by
    have hdev : d = dev0 := by simpa [Node.plain] using hpl
    have hv : (ftw_visits dev0 fpath (.file d m ct)).map (fun v => v.1) = [fpath] := by
      simp [ftw_visits, hdev]
    rw [hv] at hd ⊢
    exact removeAll_single fpath w _ hl hp (hd fpath (List.mem_singleton.mpr rfl))
      (by intro _ _ _ _ h; cases h)
  | .symlink d tg, fpath, w, hl, _, hpl, hp, hd => by
    have hdev : d = dev0 := by simpa [Node.plain] using hpl
    have hv : (ftw_visits dev0 fpath (.symlink d tg)).map (fun v => v.1) = [fpath] := by
      simp [ftw_visits, hdev]
    rw [hv] at hd ⊢
    exact removeAll_single fpath w _ hl hp (hd fpath (List.mem_singleton.mpr rfl))
      (by intro _ _ _ _ h; cases h)
  | .dir d r es, fpath, w, hl, hwf, hpl, hp, hd => by
    have hpl2 : d = dev0 ∧ r = true ∧ entriesPlain dev0 es = true := by
      simpa [Node.plain, and_assoc] using hpl
    obtain ⟨hdev, hr, hes⟩ := hpl2
    subst hr
    have hv : (ftw_visits dev0 fpath (.dir d true es)).map (fun v => v.1) =
        (ftw_visits_dir dev0 fpath es).map (fun v => v.1) ++ [fpath] := by
      simp [ftw_visits, hdev]
    rw [hv] at hd ⊢
    have ih := removeAll_ftw_visits_dir dev0 es fpath w d true hl (by simpa [Node.wf] using hwf)
      hes (fun x hx => hd x (List.mem_append_left _ hx))
    rw [removeAll_append, ih]
    simp only [Option.some_bind]
    refine Eq.trans (removeAll_single fpath _ (.dir d true []) ?_ hp ?_
      (by intro _ _ _ _ h; cases h)) ?_
    · exact lookup_modifyAt_self _ _ _ _ hl
    · exact hd fpath (by simp)
    · simp only [List.append_assoc, eraseAt_modifyAt _ _ hp]
theorem removeAll_ftw_visits_dir (dev0 : Nat) : ∀ (es : List (Name × Node)) (dpath : CString)
    (w : World) (d : Nat) (rd : Bool),
    Node.lookup (parsePath dpath) w.root = some (.dir d rd es) → entriesWf es = true →
    entriesPlain dev0 es = true →
    (∀ x ∈ (ftw_visits_dir dev0 dpath es).map (fun v => v.1),
      w.denyRemove (parsePath x) = false) →
    removeAll ((ftw_visits_dir dev0 dpath es).map (fun v => v.1)) w =
      some { w with removeLog := w.removeLog ++ (ftw_visits_dir dev0 dpath es).map (fun v => v.1),
                    root := Node.modifyAt (fun _ => .dir d rd []) (parsePath dpath) w.root }
  | [], dpath, w, d, rd, hl, _, _, _ => by
    simp only [ftw_visits_dir, List.map_nil, removeAll, List.append_nil]
    rw [modifyAt_of_fixed _ _ _ _ hl rfl]
  | (n, c) :: rest, dpath, w, d, rd, hl, hwf, hpl, hd => by
    rw [entriesWf_cons] at hwf
    rw [entriesPlain_cons] at hpl
    have hchild : parsePath (dpath ++ 47 :: n) = parsePath dpath ++ [n] :=
      parsePath_child dpath n hwf.1
    have hlc : Node.lookup (parsePath (dpath ++ 47 :: n)) w.root = some c := by
      rw [hchild, lookup_append _ _ _ _ hl, lookup_cons_dir]
      simp [findEntry, lookup_nil]
    simp only [ftw_visits_dir, List.map_append] at hd ⊢
    have ih1 := removeAll_ftw_visits dev0 c (dpath ++ 47 :: n) w hlc hwf.2.2.1 hpl.1
      (by rw [hchild]; simp) (fun x hx => hd x (List.mem_append_left _ hx))
    rw [removeAll_append, ih1]
    simp only [Option.some_bind]
    have hl1 : Node.lookup (parsePath dpath)
        (Node.eraseAt (parsePath (dpath ++ 47 :: n)) w.root) = some (.dir d rd rest) := by
      rw [hchild, lookup_eraseAt_child _ _ _ d rd _ hl]
      have : dropEntry n ((n, c) :: rest) = rest := by
        have h1 : dropEntry n ((n, c) :: rest) = dropEntry n rest := by
          simp [dropEntry, List.filter_cons]
        rw [h1, dropEntry_of_not_mem n rest hwf.2.1]
      rw [this]
    have ih2 := removeAll_ftw_visits_dir dev0 rest dpath
      { w with removeLog := w.removeLog ++ (ftw_visits dev0 (dpath ++ 47 :: n) c).map
                  (fun v => v.1),
               root := Node.eraseAt (parsePath (dpath ++ 47 :: n)) w.root }
      d rd hl1 hwf.2.2.2 hpl.2 (fun x hx => hd x (List.mem_append_right _ hx))
    rw [ih2]
    simp only [List.append_assoc, hchild, modifyAt_const_eraseAt_child]
end

/-- In a well-formed tree on one device with readable directories, every
removal of the walk succeeds when the operating system refuses none. -/
theorem removeAll_visits_of_permitted (w : World) (dir_path : CString) (t : Node)
    (hlook : Node.lookup (parsePath dir_path) w.root = some t)
    (hwf : Node.wf t = true) (hplain : Node.plain t.dev t = true)
    (hp : parsePath dir_path ≠ [])
    (hperm : ∀ x ∈ visits dir_path t, w.denyRemove (parsePath x) = false) :
    (removeAll (visits dir_path t) w).isSome = true := by
  unfold visits at hperm ⊢
  rw [removeAll_ftw_visits t.dev t dir_path w hlook hwf hplain hp hperm]
  rfl

/-! ## Theorems -/

/-- C1: `oscap_acquire_url_is_supported(u)` is true exactly when the first
seven bytes of `u` are the bytes of "http://", compared case-sensitively; it
is true for "http://x" and false for "https://x", "ftp://x", "HTTP://x" and
the empty string. -/
theorem url_is_supported_iff_http_prefix :
    (∀ u : CString,
        oscap_acquire_url_is_supported u = true ↔ u.take 7 = ofStr "http://") ∧
    oscap_acquire_url_is_supported (ofStr "http://x") = true ∧
    oscap_acquire_url_is_supported (ofStr "https://x") = false ∧
    oscap_acquire_url_is_supported (ofStr "ftp://x") = false ∧
    oscap_acquire_url_is_supported (ofStr "HTTP://x") = false ∧
    oscap_acquire_url_is_supported (ofStr "") = false := by
  refine ⟨?_, by decide, by decide, by decide, by decide, by decide⟩
  intro u
  have hn : ∀ b ∈ ofStr "http://", b ≠ 0 := by
    intro b hb
    have he : ofStr "http://" = [104, 116, 116, 112, 58, 47, 47] := by decide
    rw [he] at hb
    intro h0
    subst h0
    revert hb
    decide
  have hl : strlen (ofStr "http://") = (ofStr "http://").length := strlen_of_no_nul _ hn
  have h7 : (ofStr "http://").length = 7 := by decide
  unfold oscap_acquire_url_is_supported
  rw [hl, beq_iff_eq, strncmp_eq_zero_iff _ hn, h7]

/-- C5: when transport initialisation and escaping succeed,
`oscap_acquire_url_to_filename(u)` returns a name whose standard
percent-decoding is `u`; for "http://a.com/x y" the name is
"http%3A%2F%2Fa.com%2Fx%20y", with "%20" where the space was and no space. -/
theorem url_to_filename_round_trip (env : Env) (w : World)
    (hinit : env.curl_init_ok = true) (hesc : env.curl_escape_ok = true) :
    (∀ u : CString, (∀ b ∈ u, b ≠ 0) →
      ∃ name, (oscap_acquire_url_to_filename env u w).1 = some name ∧
        percent_decode name = u) ∧
    (∃ name, (oscap_acquire_url_to_filename env (ofStr "http://a.com/x y") w).1 = some name ∧
      name = ofStr "http%3A%2F%2Fa.com%2Fx" ++ ofStr "%20" ++ ofStr "y" ∧
      (32 : Byte) ∉ name) := by
  constructor
  · intro u hnul
    exact ⟨_, url_to_filename_eq env u w hinit hesc hnul, percent_decode_escape u⟩
  · refine ⟨_, url_to_filename_eq env _ w hinit hesc (by decide), by decide, by decide⟩

/-- Witness of C5 in an environment where every allocation succeeds. -/
theorem url_to_filename_round_trip_witness :
    (envOf ⟨0, 200, []⟩).curl_init_ok = true ∧ (envOf ⟨0, 200, []⟩).curl_escape_ok = true ∧
    ((∀ u : CString, (∀ b ∈ u, b ≠ 0) →
      ∃ name, (oscap_acquire_url_to_filename (envOf ⟨0, 200, []⟩) u (quietWorld tmpTree)).1
          = some name ∧ percent_decode name = u) ∧
    (∃ name, (oscap_acquire_url_to_filename (envOf ⟨0, 200, []⟩) (ofStr "http://a.com/x y")
          (quietWorld tmpTree)).1 = some name ∧
      name = ofStr "http%3A%2F%2Fa.com%2Fx" ++ ofStr "%20" ++ ofStr "y" ∧
      (32 : Byte) ∉ name)) :=
  ⟨rfl, rfl, url_to_filename_round_trip (envOf ⟨0, 200, []⟩) (quietWorld tmpTree) rfl rfl⟩

/-- C6, as stated, fails: for the strings "..", "." and "" the function
succeeds and returns "..", "." and "". -/
theorem url_to_filename_keeps_dot_names :
    (oscap_acquire_url_to_filename (envOf ⟨0, 200, []⟩) (ofStr "..") (quietWorld tmpTree)).1
      = some (ofStr "..") ∧
    (oscap_acquire_url_to_filename (envOf ⟨0, 200, []⟩) (ofStr ".") (quietWorld tmpTree)).1
      = some (ofStr ".") ∧
    (oscap_acquire_url_to_filename (envOf ⟨0, 200, []⟩) (ofStr "") (quietWorld tmpTree)).1
      = some (ofStr "") := by
  refine ⟨by decide, by decide, by decide⟩

/-- C6, amended: when transport initialisation and escaping succeed, the name
returned by `oscap_acquire_url_to_filename(u)` is the concatenation of the
escapes of the bytes of `u`, in which space, '/', ':', '?' and '#' are "%20",
"%2F", "%3A", "%3F" and "%23"; it contains no '/', space, ':', '?' or '#',
and it is the empty string, "." or ".." exactly when `u` is. -/
theorem url_to_filename_single_component (env : Env) (w : World) (u : CString)
    (hinit : env.curl_init_ok = true) (hesc : env.curl_escape_ok = true)
    (hnul : ∀ b ∈ u, b ≠ 0) :
    ∃ name, (oscap_acquire_url_to_filename env u w).1 = some name ∧
      (name = u.flatMap escapeByte ∧ escapeByte 32 = ofStr "%20" ∧
        escapeByte 47 = ofStr "%2F" ∧ escapeByte 58 = ofStr "%3A" ∧
        escapeByte 63 = ofStr "%3F" ∧ escapeByte 35 = ofStr "%23") ∧
      ((47 : Byte) ∉ name ∧ (32 : Byte) ∉ name ∧ (58 : Byte) ∉ name ∧ (63 : Byte) ∉ name ∧
        (35 : Byte) ∉ name) ∧
      (name = ofStr "" ↔ u = ofStr "") ∧
      (name = ofStr "." ↔ u = ofStr ".") ∧
      (name = ofStr ".." ↔ u = ofStr "..") := by
  refine ⟨_, url_to_filename_eq env u w hinit hesc hnul,
    ⟨rfl, by decide, by decide, by decide, by decide, by decide⟩, ?_, ?_, ?_, ?_⟩
  · have hs := escape_safe u
    refine ⟨fun h => (hs _ h).1 rfl, fun h => (hs _ h).2.1 rfl, fun h => (hs _ h).2.2.1 rfl,
      fun h => (hs _ h).2.2.2.1 rfl, fun h => (hs _ h).2.2.2.2 rfl⟩
  · constructor
    · intro h
      have := percent_decode_escape u
      rw [h] at this
      rw [← this]
      decide
    · intro h; subst h; decide
  · constructor
    · intro h
      have := percent_decode_escape u
      rw [h] at this
      rw [← this]
      decide
    · intro h; subst h; decide
  · constructor
    · intro h
      have := percent_decode_escape u
      rw [h] at this
      rw [← this]
      decide
    · intro h; subst h; decide

/-- Witness of the amended C6 at "http://a.com/x y". -/
theorem url_to_filename_single_component_witness :
    (envOf ⟨0, 200, []⟩).curl_init_ok = true ∧ (envOf ⟨0, 200, []⟩).curl_escape_ok = true ∧
    (∀ b ∈ ofStr "http://a.com/x y", b ≠ 0) ∧
    ∃ name, (oscap_acquire_url_to_filename (envOf ⟨0, 200, []⟩) (ofStr "http://a.com/x y")
        (quietWorld tmpTree)).1 = some name ∧
      (name = (ofStr "http://a.com/x y").flatMap escapeByte ∧ escapeByte 32 = ofStr "%20" ∧
        escapeByte 47 = ofStr "%2F" ∧ escapeByte 58 = ofStr "%3A" ∧
        escapeByte 63 = ofStr "%3F" ∧ escapeByte 35 = ofStr "%23") ∧
      ((47 : Byte) ∉ name ∧ (32 : Byte) ∉ name ∧ (58 : Byte) ∉ name ∧ (63 : Byte) ∉ name ∧
        (35 : Byte) ∉ name) ∧
      (name = ofStr "" ↔ ofStr "http://a.com/x y" = ofStr "") ∧
      (name = ofStr "." ↔ ofStr "http://a.com/x y" = ofStr ".") ∧
      (name = ofStr ".." ↔ ofStr "http://a.com/x y" = ofStr "..") :=
  ⟨rfl, rfl, by decide,
    url_to_filename_single_component (envOf ⟨0, 200, []⟩) (quietWorld tmpTree)
      (ofStr "http://a.com/x y") rfl rfl (by decide)⟩

/-- C9 fails on the path where escaping fails: `curl_easy_init` has handed out
handle 0, `curl_easy_escape` returns `NULL`, and the function returns `NULL`
with the handle still live and `curl_easy_cleanup` never called; on the path
where escaping succeeds the same handle is cleaned up once. -/
theorem url_to_filename_escape_failure_keeps_handle :
    (oscap_acquire_url_to_filename envEscapeFails (ofStr "http://a") (quietWorld tmpTree)).1
      = none ∧
    (oscap_acquire_url_to_filename envEscapeFails (ofStr "http://a")
      (quietWorld tmpTree)).2.curl_live = [0] ∧
    (oscap_acquire_url_to_filename envEscapeFails (ofStr "http://a")
      (quietWorld tmpTree)).2.curl_cleaned = [] ∧
    (oscap_acquire_url_to_filename (envOf ⟨0, 200, []⟩) (ofStr "http://a")
      (quietWorld tmpTree)).2.curl_live = [] ∧
    (oscap_acquire_url_to_filename (envOf ⟨0, 200, []⟩) (ofStr "http://a")
      (quietWorld tmpTree)).2.curl_cleaned = [0] := by
  refine ⟨by decide, by decide, by decide, by decide, by decide⟩

/-- C10 fails on the code: for the generator of `oval_generator_new` and the
element `oval_definitions`, the returned `generator` element has no children
and no text, and the parent gains four children, `generator`, `product_name`,
`schema_version` and `timestamp`, the last three holding the texts of the
fields. -/
theorem generator_to_dom_adds_fields_to_parent :
    (oval_generator_to_dom ovalCommonHref newGenerator 0 (some 0) definitionsDom).1 = some 1 ∧
    (oval_generator_to_dom ovalCommonHref newGenerator 0 (some 0) definitionsDom).2.childrenOf 1
      = [] ∧
    (oval_generator_to_dom ovalCommonHref newGenerator 0 (some 0) definitionsDom).2.namesOf
        ((oval_generator_to_dom ovalCommonHref newGenerator 0 (some 0)
          definitionsDom).2.childrenOf 0)
      = [ofStr "generator", ofStr "product_name", ofStr "schema_version", ofStr "timestamp"] ∧
    ((oval_generator_to_dom ovalCommonHref newGenerator 0 (some 0) definitionsDom).2.childrenOf
        0).map
        ((oval_generator_to_dom ovalCommonHref newGenerator 0 (some 0) definitionsDom).2.textOf)
      = [[], [ofStr "OpenSCAP"], [ofStr "5.10"], [ofStr "2012-06-01T12:00:00"]] := by
  refine ⟨by decide, by decide, by decide, by decide⟩

/-- C3: after `oscap_acquire_cleanup_dir` the handle is `NULL` whatever the
removals did; on a `NULL` handle the call changes neither the handle nor the
state (file system and error state included); so cleaning up twice is
cleaning up once. -/
theorem cleanup_dir_resets_handle :
    (∀ (h : Option CString) (w : World), (oscap_acquire_cleanup_dir h w).1 = none) ∧
    (∀ w : World, oscap_acquire_cleanup_dir none w = (none, w)) ∧
    (∀ (h : Option CString) (w : World),
      oscap_acquire_cleanup_dir (oscap_acquire_cleanup_dir h w).1
          (oscap_acquire_cleanup_dir h w).2 = oscap_acquire_cleanup_dir h w) := by
  have h1 : ∀ (h : Option CString) (w : World), (oscap_acquire_cleanup_dir h w).1 = none := by
    intro h w
    cases h with
    | none => rfl
    | some path => simp [oscap_acquire_cleanup_dir]
  refine ⟨h1, fun w => rfl, ?_⟩
  intro h w
  have h2 := h1 h w
  cases hc : oscap_acquire_cleanup_dir h w with
  | mk a b =>
    rw [hc] at h2
    simp only at h2
    subst h2
    rfl

/-- C4: when the handle's path resolves to a well-formed tree and every
removal of the walk succeeds, `oscap_acquire_cleanup_dir` leaves the file
system with exactly the entry at that path erased: the root of the tree and
every path below it are gone, every path apart from it resolves as before (the
target of a link of the tree included, the link itself being removed, not
followed), the removals were the visited paths in walk order, in which no
directory comes before an object below it, and no error is recorded. By
`removeAll_visits_of_permitted` every removal does succeed when the tree lies
on one device, its directories are readable and the operating system refuses
none of the removals. -/
theorem cleanup_dir_removes_subtree (w : World) (dir_path : CString) (t : Node)
    (hne : dir_path ≠ [])
    (hlook : Node.lookup (parsePath dir_path) w.root = some t)
    (hwf : Node.wf t = true)
    (hall : (removeAll (visits dir_path t) w).isSome = true) :
    (oscap_acquire_cleanup_dir (some dir_path) w).1 = none ∧
    (oscap_acquire_cleanup_dir (some dir_path) w).2.root =
      Node.eraseAt (parsePath dir_path) w.root ∧
    (∀ q, parsePath dir_path <+: q →
      Node.lookup q (oscap_acquire_cleanup_dir (some dir_path) w).2.root = none) ∧
    (∀ q, ¬ parsePath dir_path <+: q → ¬ q <+: parsePath dir_path →
      Node.lookup q (oscap_acquire_cleanup_dir (some dir_path) w).2.root =
        Node.lookup q w.root) ∧
    (∀ q d target, Node.lookup q t = some (.symlink d target) →
      ¬ parsePath dir_path <+: parsePath target → ¬ parsePath target <+: parsePath dir_path →
      Node.lookup (parsePath dir_path ++ q)
          (oscap_acquire_cleanup_dir (some dir_path) w).2.root = none ∧
      Node.lookup (parsePath target) (oscap_acquire_cleanup_dir (some dir_path) w).2.root =
        Node.lookup (parsePath target) w.root) ∧
    (oscap_acquire_cleanup_dir (some dir_path) w).2.removeLog =
      w.removeLog ++ visits dir_path t ∧
    (visits dir_path t).Pairwise (fun x y => ¬ parsePath x <+: parsePath y) ∧
    (oscap_acquire_cleanup_dir (some dir_path) w).2.last_error = w.last_error := by
  obtain ⟨w1, hw1⟩ := Option.isSome_iff_exists.mp hall
  obtain ⟨pre, hpre⟩ := visits_last dir_path t
  have hrun := unlinkAll_of_removeAll _ w w1 hw1
  have heq := removeAll_eq _ w w1 hw1
  have hp : parsePath dir_path ≠ [] := by
    rw [hpre, removeAll_append] at hw1
    cases hm : removeAll pre w with
    | none => rw [hm] at hw1; cases hw1
    | some w' =>
      rw [hm] at hw1
      exact (remove_ok dir_path w' (removeAll_cons_ok dir_path [] w' w1 hw1).1).1
  have hroot : w1.root = Node.eraseAt (parsePath dir_path) w.root := by
    rw [heq]
    show List.foldl _ w.root (visits dir_path t) = _
    rw [hpre, List.foldl_append]
    simp only [List.foldl_cons, List.foldl_nil]
    apply foldl_eraseAt_under pre _ hp
    intro x hx
    obtain ⟨q, hq, _⟩ := visits_parse dir_path t hwf x (by rw [hpre]; simp [hx])
    exact ⟨q, hq.symm⟩
  rw [cleanup_dir_eq w dir_path t hne hlook, hrun]
  simp only
  have hgone : ∀ q, parsePath dir_path <+: q → Node.lookup q w1.root = none := by
    intro q hq
    obtain ⟨q', rfl⟩ := hq
    rw [hroot]
    exact lookup_eraseAt_under _ q' hp _
  have hout : ∀ q, ¬ parsePath dir_path <+: q → ¬ q <+: parsePath dir_path →
      Node.lookup q w1.root = Node.lookup q w.root := by
    intro q h1 h2
    rw [hroot]
    exact lookup_eraseAt_apart _ q _ h1 h2
  refine ⟨trivial, hroot, hgone, hout, ?_, ?_, visits_pairwise dir_path t hwf, ?_⟩
  · intro q d target _ h1 h2
    exact ⟨hgone _ (List.prefix_append _ _), hout _ h1 h2⟩
  · rw [heq]
  · rw [heq]

/-- C8: when the handle's path resolves to a well-formed tree whose walk visits
`pre`, then `e`, then `post`, the removals of `pre` all succeed and the
removal of `e` after them fails, `oscap_acquire_cleanup_dir` leaves the file
system as it is after removing `pre`: every path of `pre` is gone, `e` and
every path of `post` still resolve, `remove` was called on `pre` and `e` and
on nothing after, and the error state holds the GLIBC error "Could not remove
`e`. " followed by the text of `errno`. -/
theorem cleanup_dir_stops_at_first_failure (w : World) (dir_path : CString) (t : Node)
    (pre post : List CString) (e : CString)
    (hne : dir_path ≠ [])
    (hlook : Node.lookup (parsePath dir_path) w.root = some t)
    (hwf : Node.wf t = true)
    (hsplit : visits dir_path t = pre ++ e :: post)
    (hpre : (removeAll pre w).isSome = true)
    (hfail : removeAll (pre ++ [e]) w = none) :
    (oscap_acquire_cleanup_dir (some dir_path) w).1 = none ∧
    (oscap_acquire_cleanup_dir (some dir_path) w).2.root =
      pre.foldl (fun r x => Node.eraseAt (parsePath x) r) w.root ∧
    (∀ x ∈ pre,
      Node.lookup (parsePath x) (oscap_acquire_cleanup_dir (some dir_path) w).2.root = none) ∧
    (∀ y ∈ e :: post,
      (Node.lookup (parsePath y)
        (oscap_acquire_cleanup_dir (some dir_path) w).2.root).isSome = true) ∧
    (oscap_acquire_cleanup_dir (some dir_path) w).2.removeLog = w.removeLog ++ pre ++ [e] ∧
    (oscap_acquire_cleanup_dir (some dir_path) w).2.last_error =
      some ⟨.OSCAP_EFAMILY_GLIBC, ofStr "Could not remove " ++ e ++ ofStr ". " ++
        strerror (oscap_acquire_cleanup_dir (some dir_path) w).2.errno⟩ := by
  obtain ⟨w1, hw1⟩ := Option.isSome_iff_exists.mp hpre
  have hrem : (remove e w1).1 ≠ 0 := by
    intro h0
    rw [removeAll_append, hw1] at hfail
    simp [removeAll, h0] at hfail
  have heq := removeAll_eq _ w w1 hw1
  obtain ⟨en, hen⟩ := remove_fail e w1 hrem
  rw [cleanup_dir_eq w dir_path t hne hlook, hsplit, unlinkAll_stops pre post e w w1 hw1 hrem]
  simp only [oscap_seterr]
  have hroot : (remove e w1).2.root = w1.root := by rw [hen]
  have hpw := visits_pairwise dir_path t hwf
  rw [hsplit, List.pairwise_append] at hpw
  refine ⟨trivial, ?_, ?_, ?_, ?_, ?_⟩
  · rw [hroot, heq]
  · intro x hx
    rw [hroot]
    exact removeAll_gone pre w w1 hw1 x hx
  · intro y hy
    rw [hroot]
    apply removeAll_keeps_some pre w w1 _ hw1
    · obtain ⟨q, hq, hex⟩ := visits_parse dir_path t hwf y (by rw [hsplit]; simp [hy])
      rw [hq, lookup_append _ q _ t hlook]
      exact hex
    · intro x hx
      exact hpw.2.2 x hx y hy
  · rw [hen, heq]
  · trivial

/-- Witness of C4 on the sample file system, where nothing is refused. -/
theorem cleanup_dir_removes_subtree_witness :
    sampleDir ≠ [] ∧
    Node.lookup (parsePath sampleDir) (quietWorld sampleTree).root = some sampleSubtree ∧
    Node.wf sampleSubtree = true ∧
    (removeAll (visits sampleDir sampleSubtree) (quietWorld sampleTree)).isSome = true ∧
    ((oscap_acquire_cleanup_dir (some sampleDir) (quietWorld sampleTree)).1 = none ∧
    (oscap_acquire_cleanup_dir (some sampleDir) (quietWorld sampleTree)).2.root =
      Node.eraseAt (parsePath sampleDir) (quietWorld sampleTree).root ∧
    (∀ q, parsePath sampleDir <+: q →
      Node.lookup q (oscap_acquire_cleanup_dir (some sampleDir) (quietWorld sampleTree)).2.root
        = none) ∧
    (∀ q, ¬ parsePath sampleDir <+: q → ¬ q <+: parsePath sampleDir →
      Node.lookup q (oscap_acquire_cleanup_dir (some sampleDir) (quietWorld sampleTree)).2.root =
        Node.lookup q (quietWorld sampleTree).root) ∧
    (∀ q d target, Node.lookup q sampleSubtree = some (.symlink d target) →
      ¬ parsePath sampleDir <+: parsePath target → ¬ parsePath target <+: parsePath sampleDir →
      Node.lookup (parsePath sampleDir ++ q)
          (oscap_acquire_cleanup_dir (some sampleDir) (quietWorld sampleTree)).2.root = none ∧
      Node.lookup (parsePath target)
          (oscap_acquire_cleanup_dir (some sampleDir) (quietWorld sampleTree)).2.root =
        Node.lookup (parsePath target) (quietWorld sampleTree).root) ∧
    (oscap_acquire_cleanup_dir (some sampleDir) (quietWorld sampleTree)).2.removeLog =
      (quietWorld sampleTree).removeLog ++ visits sampleDir sampleSubtree ∧
    (visits sampleDir sampleSubtree).Pairwise (fun x y => ¬ parsePath x <+: parsePath y) ∧
    (oscap_acquire_cleanup_dir (some sampleDir) (quietWorld sampleTree)).2.last_error =
      (quietWorld sampleTree).last_error) :=
  ⟨by decide, rfl, by decide, by decide,
    cleanup_dir_removes_subtree (quietWorld sampleTree) sampleDir sampleSubtree (by decide) rfl
      (by decide) (by decide)⟩

/-- Witness of C8 on the sample file system, where the removal of
`/tmp/oscap.aaaaaa/sub/b.xml` is refused. -/
theorem cleanup_dir_stops_at_first_failure_witness :
    sampleDir ≠ [] ∧
    Node.lookup (parsePath sampleDir) lockedWorld.root = some sampleSubtree ∧
    Node.wf sampleSubtree = true ∧
    visits sampleDir sampleSubtree =
      [ofStr "/tmp/oscap.aaaaaa/a.xml"] ++ ofStr "/tmp/oscap.aaaaaa/sub/b.xml" ::
        [ofStr "/tmp/oscap.aaaaaa/sub/link", ofStr "/tmp/oscap.aaaaaa/sub",
         ofStr "/tmp/oscap.aaaaaa/c.xml", ofStr "/tmp/oscap.aaaaaa"] ∧
    (removeAll [ofStr "/tmp/oscap.aaaaaa/a.xml"] lockedWorld).isSome = true ∧
    removeAll ([ofStr "/tmp/oscap.aaaaaa/a.xml"] ++ [ofStr "/tmp/oscap.aaaaaa/sub/b.xml"])
      lockedWorld = none ∧
    ((oscap_acquire_cleanup_dir (some sampleDir) lockedWorld).1 = none ∧
    (oscap_acquire_cleanup_dir (some sampleDir) lockedWorld).2.root =
      [ofStr "/tmp/oscap.aaaaaa/a.xml"].foldl (fun r x => Node.eraseAt (parsePath x) r)
        lockedWorld.root ∧
    (∀ x ∈ [ofStr "/tmp/oscap.aaaaaa/a.xml"],
      Node.lookup (parsePath x) (oscap_acquire_cleanup_dir (some sampleDir) lockedWorld).2.root
        = none) ∧
    (∀ y ∈ ofStr "/tmp/oscap.aaaaaa/sub/b.xml" ::
        [ofStr "/tmp/oscap.aaaaaa/sub/link", ofStr "/tmp/oscap.aaaaaa/sub",
         ofStr "/tmp/oscap.aaaaaa/c.xml", ofStr "/tmp/oscap.aaaaaa"],
      (Node.lookup (parsePath y)
        (oscap_acquire_cleanup_dir (some sampleDir) lockedWorld).2.root).isSome = true) ∧
    (oscap_acquire_cleanup_dir (some sampleDir) lockedWorld).2.removeLog =
      lockedWorld.removeLog ++ [ofStr "/tmp/oscap.aaaaaa/a.xml"] ++
        [ofStr "/tmp/oscap.aaaaaa/sub/b.xml"] ∧
    (oscap_acquire_cleanup_dir (some sampleDir) lockedWorld).2.last_error =
      some ⟨.OSCAP_EFAMILY_GLIBC, ofStr "Could not remove " ++
        ofStr "/tmp/oscap.aaaaaa/sub/b.xml" ++ ofStr ". " ++
        strerror (oscap_acquire_cleanup_dir (some sampleDir) lockedWorld).2.errno⟩) :=
  ⟨by decide, rfl, by decide, by decide, by decide, rfl,
    cleanup_dir_stops_at_first_failure lockedWorld sampleDir sampleSubtree
      [ofStr "/tmp/oscap.aaaaaa/a.xml"]
      [ofStr "/tmp/oscap.aaaaaa/sub/link", ofStr "/tmp/oscap.aaaaaa/sub",
        ofStr "/tmp/oscap.aaaaaa/c.xml", ofStr "/tmp/oscap.aaaaaa"]
      (ofStr "/tmp/oscap.aaaaaa/sub/b.xml") (by decide) rfl (by decide) (by decide)
      (by decide) rfl⟩

theorem listing_congr (dir : CString) (w w' : World) (h : w'.root = w.root) :
    listing dir w' = listing dir w := by
  unfold listing
  rw [h]

/-- C7: when the file is created, the stream opened and libcurl initialised,
`oscap_acquire_url_download` returns `NULL` exactly when `curl_easy_perform`
returns a non-zero code; with code 0 it returns the name of the file, which
then exists and holds the body received, whatever the HTTP status of the
response was. -/
theorem url_download_fails_iff_transfer_fails (env : Env) (temp_dir url : CString) (w : World)
    (hcreate : (mkstemp env.randoms
      (snprintf env.PATH_MAX (temp_dir ++ ofStr "/" ++ TEMP_URL_TEMPLATE)) (umask 0o77 w).2).1
        ≠ -1)
    (hfdopen : env.fdopen_ok = true) (hinit : env.curl_init_ok = true) :
    ((oscap_acquire_url_download env temp_dir url w).1 = none ↔ (env.perform url).code ≠ 0) ∧
    ((env.perform url).code = 0 →
      ∃ path d mode, (oscap_acquire_url_download env temp_dir url w).1 = some path ∧
        Node.lookup (parsePath path) (oscap_acquire_url_download env temp_dir url w).2.root =
          some (.file d mode (env.perform url).body)) := by
  obtain ⟨v, p, n, d, rd, es, hp, hl, hf, hok, hfail⟩ :=
    url_download_created env temp_dir url w hcreate
  constructor
  · constructor
    · intro hnone hc
      rw [(hok hfdopen hinit hc).1] at hnone
      cases hnone
    · intro hc
      exact (hfail (fun h => hc h.2.2)).1
  · intro hc
    refine ⟨_, d, 0o600 &&& (0o7777 ^^^ (0o77 &&& 0o7777)), (hok hfdopen hinit hc).1, ?_⟩
    rw [(hok hfdopen hinit hc).2, hp]
    exact (lookup_insertAt_new n _ p w.root d rd es hl hf).2

/-- Witness of C7: a response with HTTP status 404 delivered with result code
0 into the sample temporary directory. -/
theorem url_download_fails_iff_transfer_fails_witness :
    (mkstemp (envOf ⟨0, 404, [60, 33, 62]⟩).randoms
      (snprintf (envOf ⟨0, 404, [60, 33, 62]⟩).PATH_MAX
        (sampleDir ++ ofStr "/" ++ TEMP_URL_TEMPLATE)) (umask 0o77 (quietWorld tmpTree)).2).1
        ≠ -1 ∧
    (envOf ⟨0, 404, [60, 33, 62]⟩).fdopen_ok = true ∧
    (envOf ⟨0, 404, [60, 33, 62]⟩).curl_init_ok = true ∧
    (((oscap_acquire_url_download (envOf ⟨0, 404, [60, 33, 62]⟩) sampleDir (ofStr "http://x/")
        (quietWorld tmpTree)).1 = none ↔
      ((envOf ⟨0, 404, [60, 33, 62]⟩).perform (ofStr "http://x/")).code ≠ 0) ∧
    (((envOf ⟨0, 404, [60, 33, 62]⟩).perform (ofStr "http://x/")).code = 0 →
      ∃ path d mode,
        (oscap_acquire_url_download (envOf ⟨0, 404, [60, 33, 62]⟩) sampleDir (ofStr "http://x/")
          (quietWorld tmpTree)).1 = some path ∧
        Node.lookup (parsePath path)
          (oscap_acquire_url_download (envOf ⟨0, 404, [60, 33, 62]⟩) sampleDir
            (ofStr "http://x/") (quietWorld tmpTree)).2.root =
          some (.file d mode ((envOf ⟨0, 404, [60, 33, 62]⟩).perform (ofStr "http://x/")).body))) :=
  ⟨by decide, rfl, rfl,
    url_download_fails_iff_transfer_fails (envOf ⟨0, 404, [60, 33, 62]⟩) sampleDir
      (ofStr "http://x/") (quietWorld tmpTree) (by decide) rfl rfl⟩

/-- C2, as stated, fails: the transport cannot connect (result code 7), the
operating system refuses to remove the file `mkstemp` created, and the call
returns `NULL` with the directory, empty before the call, listing that file;
the error state reports the removal failure. -/
theorem url_download_leaves_file_when_remove_fails :
    (oscap_acquire_url_download (envOf ⟨7, 0, [60]⟩) sampleDir (ofStr "http://x/")
      refusingWorld).1 = none ∧
    listing sampleDir refusingWorld = some [] ∧
    listing sampleDir (oscap_acquire_url_download (envOf ⟨7, 0, [60]⟩) sampleDir
      (ofStr "http://x/") refusingWorld).2 = some [ofStr "downloaded.haaaaa"] ∧
    (oscap_acquire_url_download (envOf ⟨7, 0, [60]⟩) sampleDir (ofStr "http://x/")
      refusingWorld).2.last_error =
      some ⟨.OSCAP_EFAMILY_GLIBC, ofStr "Download failed: Couldn't connect to server" ++
        ofStr ". Failed to remove temp file /tmp/oscap.aaaaaa/downloaded.haaaaa" ++
        ofStr ". Permission denied"⟩ := by
  refine ⟨by decide, by decide, by decide, by decide⟩

/-- C2, amended: when `dir` followed by "/downloaded.XXXXXX" fits in
`PATH_MAX` bytes, a call of `oscap_acquire_url_download(dir, url)` that returns
`NULL` leaves the file system, and so the listing of `dir`, as before the
call, unless the operating system refused to remove the file the call had
created, in which case the listing of `dir` is the previous one followed by
that one name; a call that returns a path returns `dir` "/" `n` for a name
`n` that was not listed in `dir`, and the listing of `dir` is the previous
one followed by `n`. -/
theorem url_download_listing (env : Env) (temp_dir url : CString) (w : World)
    (hfit : temp_dir.length + 18 < env.PATH_MAX) :
    ((oscap_acquire_url_download env temp_dir url w).1 = none →
      ((oscap_acquire_url_download env temp_dir url w).2.root = w.root ∧
        listing temp_dir (oscap_acquire_url_download env temp_dir url w).2 =
          listing temp_dir w) ∨
      (∃ n l, w.denyRemove (parsePath temp_dir ++ [n]) = true ∧
        listing temp_dir w = some l ∧ n ∉ l ∧
        listing temp_dir (oscap_acquire_url_download env temp_dir url w).2 = some (l ++ [n]))) ∧
    (∀ path, (oscap_acquire_url_download env temp_dir url w).1 = some path →
      ∃ n l, path = temp_dir ++ ofStr "/" ++ n ∧ listing temp_dir w = some l ∧ n ∉ l ∧
        listing temp_dir (oscap_acquire_url_download env temp_dir url w).2 = some (l ++ [n])) := by
  by_cases hcreate : (mkstemp env.randoms
      (snprintf env.PATH_MAX (temp_dir ++ ofStr "/" ++ TEMP_URL_TEMPLATE))
      { w with umask := 0o77 }).1 = -1
  · rcases mkstemp_cases env.randoms (snprintf env.PATH_MAX (temp_dir ++ ofStr "/" ++
      TEMP_URL_TEMPLATE)) { w with umask := 0o77 } with hc | ⟨v, _, _, hfd, hc⟩
    · obtain ⟨_, e, he⟩ := hc
      cases hm : mkstemp env.randoms (snprintf env.PATH_MAX (temp_dir ++ ofStr "/" ++
        TEMP_URL_TEMPLATE)) { w with umask := 0o77 } with
      | mk fd rest =>
        obtain ⟨name, w1⟩ := rest
        rw [hm] at hcreate he
        simp only at hcreate he
        subst hcreate
        have hd := url_download_of_mkstemp_fail env temp_dir url w name w1 hm
        have hroot : (oscap_acquire_url_download env temp_dir url w).2.root = w.root := by
          rw [hd, he]
          rfl
        constructor
        · intro _
          exact Or.inl ⟨hroot, listing_congr _ _ _ hroot⟩
        · intro path hpath
          rw [hd] at hpath
          cases hpath
    · rw [hc] at hcreate
      simp only at hcreate
      omega
  · obtain ⟨v, p, n, d, rd, es, hp, hl, hf, hok, hfail⟩ :=
      url_download_created env temp_dir url w hcreate
    obtain ⟨hname, hparse⟩ := template_fits env.PATH_MAX temp_dir v hfit
    rw [hname] at hp hok
    rw [hparse] at hp
    obtain ⟨hpe, hne⟩ := List.append_inj' hp rfl
    have hn : ofStr "downloaded." ++ gen_suffix v = n := by simpa using hne
    subst hpe
    subst hn
    have hbefore : listing temp_dir w = some (entryNames es) := by
      simp only [listing, hl]
    have hafter : ∀ (w' : World) (c : List Byte) (mode : Nat),
        w'.root = Node.insertAt (ofStr "downloaded." ++ gen_suffix v) (.file d mode c)
          (parsePath temp_dir) w.root →
        listing temp_dir w' = some (entryNames es ++ [ofStr "downloaded." ++ gen_suffix v]) := by
      intro w' c mode hr
      simp only [listing, hr, (lookup_insertAt_new _ _ _ w.root d rd es hl hf).1]
      simp [entryNames]
    constructor
    · intro hnone
      have hnot : ¬ (env.fdopen_ok = true ∧ env.curl_init_ok = true ∧
          (env.perform url).code = 0) := by
        intro h
        rw [(hok h.1 h.2.1 h.2.2).1] at hnone
        cases hnone
      cases hd : w.denyRemove (parsePath temp_dir ++ [ofStr "downloaded." ++ gen_suffix v]) with
      | false =>
        have hroot := (hfail hnot).2.1 hd
        exact Or.inl ⟨hroot, listing_congr _ _ _ hroot⟩
      | true =>
        obtain ⟨c, hroot⟩ := (hfail hnot).2.2 hd
        exact Or.inr ⟨_, entryNames es, hd, hbefore, (findEntry_eq_none_iff _ es).mp hf,
          hafter _ c _ hroot⟩
    · intro path hpath
      have hall : env.fdopen_ok = true ∧ env.curl_init_ok = true ∧
          (env.perform url).code = 0 := by
        by_contra h
        rw [(hfail h).1] at hpath
        cases hpath
      obtain ⟨h1, h2⟩ := hok hall.1 hall.2.1 hall.2.2
      rw [h1] at hpath
      cases hpath
      exact ⟨_, entryNames es, rfl, hbefore, (findEntry_eq_none_iff _ es).mp hf,
        hafter _ _ _ h2⟩

/-- Witness of the amended C2: a successful download into the sample
temporary directory. -/
theorem url_download_listing_witness :
    sampleDir.length + 18 < (envOf ⟨0, 200, [97, 98, 99]⟩).PATH_MAX ∧
    (((oscap_acquire_url_download (envOf ⟨0, 200, [97, 98, 99]⟩) sampleDir (ofStr "http://x/")
        (quietWorld tmpTree)).1 = none →
      ((oscap_acquire_url_download (envOf ⟨0, 200, [97, 98, 99]⟩) sampleDir (ofStr "http://x/")
          (quietWorld tmpTree)).2.root = (quietWorld tmpTree).root ∧
        listing sampleDir (oscap_acquire_url_download (envOf ⟨0, 200, [97, 98, 99]⟩) sampleDir
          (ofStr "http://x/") (quietWorld tmpTree)).2 = listing sampleDir (quietWorld tmpTree)) ∨
      (∃ n l, (quietWorld tmpTree).denyRemove (parsePath sampleDir ++ [n]) = true ∧
        listing sampleDir (quietWorld tmpTree) = some l ∧ n ∉ l ∧
        listing sampleDir (oscap_acquire_url_download (envOf ⟨0, 200, [97, 98, 99]⟩) sampleDir
          (ofStr "http://x/") (quietWorld tmpTree)).2 = some (l ++ [n]))) ∧
    (∀ path, (oscap_acquire_url_download (envOf ⟨0, 200, [97, 98, 99]⟩) sampleDir
        (ofStr "http://x/") (quietWorld tmpTree)).1 = some path →
      ∃ n l, path = sampleDir ++ ofStr "/" ++ n ∧ listing sampleDir (quietWorld tmpTree) = some l ∧
        n ∉ l ∧
        listing sampleDir (oscap_acquire_url_download (envOf ⟨0, 200, [97, 98, 99]⟩) sampleDir
          (ofStr "http://x/") (quietWorld tmpTree)).2 = some (l ++ [n]))) :=
  ⟨by decide,
    url_download_listing (envOf ⟨0, 200, [97, 98, 99]⟩) sampleDir (ofStr "http://x/")
      (quietWorld tmpTree) (by decide)⟩

end OpenSCAP
